import Mathlib

/-!
# bfgminer `util.h`: byte buffers and timers

A shallow embedding of the inline helpers of `util.h`:

* the growable byte buffer `bytes_t` with `bytes_resize`, `bytes_cat`,
  `bytes_cpy` and `bytes_free`, run against an explicit heap;
* the `struct timeval` helpers `timer_isset`, `timer_passed`,
  `timer_elapsed`, `timer_set_delay`, `reduce_timeout_to` and
  `select_timeout`.

Conventions.

* `size_t` values are naturals; the arithmetic of the source that can wrap
  is reduced modulo `2 ^ w`, where `w` is the width of `size_t`.
* `time_t` / `suseconds_t` values are mathematical integers: signed overflow
  is undefined in C and is left out of the model.
* `int` is `iw` bits wide, two's complement.  Where the source converts a
  `time_t` to `int` (the return of `timer_elapsed`) the value is reduced
  modulo `2 ^ iw` into `[-2 ^ (iw - 1), 2 ^ (iw - 1))`, which is what the
  compilers of the source's platforms define for this conversion.
* Pointers are block addresses, `0` being `NULL`.  A block holds cells; a
  cell is `none` while its byte is indeterminate.
* Loops that the source does not bound run on fuel; running out of fuel is
  the outcome `spin`.
-/

namespace Bfg

/-! ## Outcomes -/

/-- How a call of the C code ends: it returns a value, the process is
aborted, the behaviour is undefined, or a loop has not finished within the
fuel given. -/
inductive Outcome (α : Type) where
  | ok (a : α)
  | abort
  | undefined
  | spin

/-- The value a call returned, when it returned. -/
def Outcome.val {α : Type} : Outcome α → Option α
  | .ok a => some a
  | _ => none

/-! ## Heap and the C library -/

/-- The allocator state: the live blocks by address, the highest address
handed out so far, and the number of bytes that can still be handed out. -/
structure Heap where
  live : Nat → Option (List (Option Nat))
  brk : Nat
  room : Nat

/-- No block lives at `NULL` or above the highest address handed out. -/
def Heap.wf (h : Heap) : Prop :=
  h.live 0 = none ∧ ∀ a, h.brk < a → h.live a = none

/-- The heap with nothing allocated and `room` bytes to hand out. -/
def Heap.empty (room : Nat) : Heap :=
  ⟨fun _ => none, 0, room⟩

/-- The C library `malloc`: a fresh block of `n` indeterminate bytes, or
`NULL` when the request exceeds what is left. -/
def malloc (h : Heap) (n : Nat) : Heap × Nat :=
  if n ≤ h.room then
    (⟨Function.update h.live (h.brk + 1) (some (List.replicate n none)),
      h.brk + 1, h.room - n⟩, h.brk + 1)
  else (h, 0)

/-- The C library `free`: a no-op on `NULL`, undefined (`none`) on a pointer
that is not a live block. -/
def free (h : Heap) (p : Nat) : Option Heap :=
  if p = 0 then some h
  else
    match h.live p with
    | none => none
    | some cs => some ⟨Function.update h.live p none, h.brk, h.room + cs.length⟩

/-- The C library `realloc`: `malloc` on `NULL`; on a live block, a block of
`n` bytes that keeps the old contents up to the smaller size (the block
moves to a fresh address), or `NULL` with the old block untouched when the
request cannot be served; undefined (`none`) on any other pointer. -/
def realloc (h : Heap) (p n : Nat) : Option (Heap × Nat) :=
  if p = 0 then some (malloc h n)
  else
    match h.live p with
    | none => none
    | some cs =>
      if n ≤ h.room + cs.length then
        some (⟨Function.update (Function.update h.live p none) (h.brk + 1)
                (some (cs.take n ++ List.replicate (n - cs.length) none)),
              h.brk + 1, h.room + cs.length - n⟩, h.brk + 1)
      else some (h, 0)

/-- The C library `memcpy(&dst[off], src, n)`: copies `n` cells from the
start of block `src` to offset `off` of block `dst`.  A copy of zero bytes
does nothing; otherwise both blocks must be live, the ranges must lie inside
them and must not overlap, else the behaviour is undefined (`none`). -/
def memcpy (h : Heap) (dst off src n : Nat) : Option Heap :=
  if n = 0 then some h
  else if dst = 0 ∨ src = 0 ∨ (dst = src ∧ off < n) then none
  else
    match h.live dst, h.live src with
    | some d, some s =>
      if off + n ≤ d.length ∧ n ≤ s.length then
        some ⟨Function.update h.live dst
                (some (d.take off ++ s.take n ++ d.drop (off + n))),
              h.brk, h.room⟩
      else none
    | _, _ => none

/-! ## `bytes_t` -/

/-- The `struct bytes_t` of the source: `buf` is the address of the backing
block (`0` is `NULL`), `sz` the length in use, `allocsz` the capacity. -/
structure bytes_t where
  buf : Nat
  sz : Nat
  allocsz : Nat
  deriving DecidableEq, Repr

/-- The source's `bytes_len`. -/
def bytes_len (b : bytes_t) : Nat := b.sz

/-- Modelled from the spec: `_bytes_alloc_failure` is declared `extern` in
`util.h` and defined elsewhere; the spec says that `resize` "fails fatally
(process-level abort, not a recoverable error) on allocation failure". -/
def _bytes_alloc_failure {α : Type} (_allocsz : Nat) : Outcome α := .abort

/-- The `do { b->allocsz *= 2; } while (newsz > b->allocsz);` loop of
`bytes_resize`, the product taken modulo `2 ^ w`.  `none` when the fuel runs
out before the loop condition fails. -/
def bytes_resize_loop (w : Nat) : Nat → Nat → Nat → Option Nat
  | 0, _, _ => none
  | fuel + 1, newsz, allocsz =>
    let allocsz := allocsz * 2 % 2 ^ w
    if newsz > allocsz then bytes_resize_loop w fuel newsz allocsz
    else some allocsz

/-- The source's `bytes_resize`. -/
def bytes_resize (w fuel : Nat) (h : Heap) (b : bytes_t) (newsz : Nat) :
    Outcome (Heap × bytes_t) :=
  let b : bytes_t := { b with sz := newsz }
  if newsz ≤ b.allocsz then .ok (h, b)
  else
    let b : bytes_t := if b.allocsz = 0 then { b with allocsz := 0x10 } else b
    match bytes_resize_loop w fuel newsz b.allocsz with
    | none => .spin
    | some a =>
      let b : bytes_t := { b with allocsz := a }
      match realloc h b.buf b.allocsz with
      | none => .undefined
      | some (h, p) =>
        let b : bytes_t := { b with buf := p }
        if b.buf = 0 then _bytes_alloc_failure b.allocsz
        else .ok (h, b)

/-- The source's `bytes_cat`; `origsz + addsz` is a `size_t` sum. -/
def bytes_cat (w fuel : Nat) (h : Heap) (b cat : bytes_t) :
    Outcome (Heap × bytes_t) :=
  let origsz := bytes_len b
  let addsz := bytes_len cat
  match bytes_resize w fuel h b ((origsz + addsz) % 2 ^ w) with
  | .ok (h, b) =>
    match memcpy h b.buf origsz cat.buf addsz with
    | some h => .ok (h, b)
    | none => .undefined
  | .abort => .abort
  | .undefined => .undefined
  | .spin => .spin

/-- The `while (dst->sz <= (half = dst->allocsz / 2)) dst->allocsz = half;`
loop of `bytes_cpy`.  `none` when the fuel runs out first. -/
def bytes_cpy_loop : Nat → Nat → Nat → Option Nat
  | 0, _, _ => none
  | fuel + 1, sz, allocsz =>
    let half := allocsz / 2
    if sz ≤ half then bytes_cpy_loop fuel sz half
    else some allocsz

/-- The source's `bytes_cpy`.  The result of `malloc` is not checked by the
source, so a failed allocation runs into the `memcpy` to `NULL`. -/
def bytes_cpy (fuel : Nat) (h : Heap) (dst src : bytes_t) :
    Outcome (Heap × bytes_t) :=
  let dst : bytes_t := { dst with sz := src.sz }
  if dst.sz = 0 then .ok (h, { dst with allocsz := 0, buf := 0 })
  else
    let dst : bytes_t := { dst with allocsz := src.allocsz }
    match bytes_cpy_loop fuel dst.sz dst.allocsz with
    | none => .spin
    | some a =>
      let dst : bytes_t := { dst with allocsz := a }
      let r := malloc h dst.allocsz
      let dst : bytes_t := { dst with buf := r.2 }
      match memcpy r.1 dst.buf 0 src.buf dst.sz with
      | some h => .ok (h, dst)
      | none => .undefined

/-- The source's `bytes_free`: the block is freed and `sz`, `allocsz` are
zeroed; `buf` is not assigned. -/
def bytes_free (h : Heap) (b : bytes_t) : Outcome (Heap × bytes_t) :=
  match free h b.buf with
  | none => .undefined
  | some h => .ok (h, { b with sz := 0, allocsz := 0 })

/-- The cells stored at address `p`: those of the live block there, none
when `p` is `NULL` or dangling. -/
def Heap.cells (h : Heap) (p : Nat) : List (Option Nat) :=
  (h.live p).getD []

/-- The bytes a buffer holds: the first `sz` cells of its block. -/
def bytes_data (h : Heap) (b : bytes_t) : List (Option Nat) :=
  (h.cells b.buf).take b.sz

/-- A buffer is backed when `buf` is `NULL` with capacity `0`, or is a live
block of exactly `allocsz` cells. -/
def bytes_backed (h : Heap) (b : bytes_t) : Prop :=
  if b.buf = 0 then b.allocsz = 0
  else (h.live b.buf).map List.length = some b.allocsz

instance (h : Heap) (b : bytes_t) : Decidable (bytes_backed h b) := by
  unfold bytes_backed; infer_instance

/-! ## Sequences of calls on one buffer -/

/-- One call on the buffer under test: `bytes_resize(b, newsz)` or
`bytes_cat(b, c)`. -/
inductive bytes_op where
  | resize (newsz : Nat)
  | cat (c : bytes_t)

/-- The length a call requests of a buffer whose length is `sz`: the
argument that reaches `bytes_resize`. -/
def bytes_op.request (w sz : Nat) : bytes_op → Nat
  | .resize newsz => newsz
  | .cat c => (sz + c.sz) % 2 ^ w

/-- One call of the sequence. -/
def bytes_step (w fuel : Nat) (h : Heap) (b : bytes_t) :
    bytes_op → Outcome (Heap × bytes_t)
  | .resize newsz => bytes_resize w fuel h b newsz
  | .cat c => bytes_cat w fuel h b c

/-- The calls of a sequence, one after the other, on the same buffer. -/
def bytes_run (w fuel : Nat) : List bytes_op → Heap → bytes_t → Outcome (Heap × bytes_t)
  | [], h, b => .ok (h, b)
  | op :: ops, h, b =>
    match bytes_step w fuel h b op with
    | .ok r => bytes_run w fuel ops r.1 r.2
    | .abort => .abort
    | .undefined => .undefined
    | .spin => .spin

/-- The largest length requested by a sequence of calls on a buffer whose
length is `sz` (`0` for the empty sequence). -/
def bytes_requested (w : Nat) : List bytes_op → Nat → Nat
  | [], _ => 0
  | op :: ops, sz => max (op.request w sz) (bytes_requested w ops (op.request w sz))

/-- The length requested last by a sequence of calls on a buffer whose
length is `sz` (`sz` itself for the empty sequence). -/
def bytes_last_request (w : Nat) : List bytes_op → Nat → Nat
  | [], sz => sz
  | op :: ops, sz => bytes_last_request w ops (op.request w sz)

/-- A sequence of calls is admissible for a buffer of length `sz` whose
block is at `p`: every requested length is at most `2 ^ (w - 1)`, and every
operand of `bytes_cat` is a backed buffer within its capacity whose block is
not the one at `p`. -/
def bytes_ops_ok (w : Nat) (h : Heap) (p : Nat) : List bytes_op → Nat → Prop
  | [], _ => True
  | .resize newsz :: ops, _ => newsz ≤ 2 ^ (w - 1) ∧ bytes_ops_ok w h p ops newsz
  | .cat c :: ops, sz =>
    sz + c.sz ≤ 2 ^ (w - 1) ∧ bytes_backed h c ∧ c.sz ≤ c.allocsz ∧
      (c.buf = 0 ∨ c.buf ≠ p) ∧ bytes_ops_ok w h p ops (sz + c.sz)

/-- The growth law of `bytes_resize`: `c'` is the capacity after a request
of `n` on a capacity of `c`, namely `c` itself when `n ≤ c`, and else the
first of the doublings of the start value (16 for `c = 0`, else `c`) that
reaches `n`. -/
def bytes_grown (c n c' : Nat) : Prop :=
  if n ≤ c then c' = c
  else ∃ k, 1 ≤ k ∧ c' = (if c = 0 then 16 else c) * 2 ^ k ∧ n ≤ c' ∧
    ∀ j, 1 ≤ j → j < k → (if c = 0 then 16 else c) * 2 ^ j < n

/-- The capacity law of a buffer grown from the empty state: the capacity
`c` is `0` while the largest length requested, `m`, is `0`, and else it is
the least value of the form `32 * 2 ^ k` that is at least `m`. -/
def bytes_cap_law (m c : Nat) : Prop :=
  (m = 0 → c = 0) ∧ (0 < m → IsLeast {x | ∃ k, x = 32 * 2 ^ k ∧ m ≤ x} c)

/-- The length the spec gives a buffer of length `sz` after one call: the
new length after `resize`, the old length plus the length of the operand
after `append`. -/
def bytes_op.length_after (sz : Nat) : bytes_op → Nat
  | .resize newsz => newsz
  | .cat c => sz + bytes_len c

/-- The length the spec gives a buffer of length `sz` after a sequence of
calls. -/
def bytes_final_len (ops : List bytes_op) (sz : Nat) : Nat :=
  ops.foldl (fun sz op => op.length_after sz) sz

/-! ## Sample states -/

/-- A heap holding one block of four cells at address 1. -/
def bytes_heap_small : Heap :=
  ⟨fun a => if a = 1 then some [some 104, some 105, none, none] else none, 1, 1000⟩

/-- A block of `2 ^ 31` indeterminate cells. -/
def bytes_block_large : List (Option Nat) := List.replicate (2 ^ 31) none

/-- A heap holding a block of `2 ^ 31` cells at address 1 and a block of one
cell at address 2. -/
def bytes_heap_large : Heap :=
  ⟨fun a => if a = 1 then some bytes_block_large
            else if a = 2 then some [some 7] else none, 2, 2 ^ 33⟩

/-! ## `struct timeval` and the `<sys/time.h>` macros -/

/-- The C library `struct timeval`: whole seconds and microseconds. -/
structure timeval where
  tv_sec : Int
  tv_usec : Int
  deriving DecidableEq, Repr

/-- The point in time a `timeval` denotes, in microseconds. -/
def timeval.usecs (t : timeval) : Int := t.tv_sec * 1000000 + t.tv_usec

/-- The field `tv_usec` is normalised: it lies in `[0, 10^6)`. -/
def timeval.norm (t : timeval) : Prop := 0 ≤ t.tv_usec ∧ t.tv_usec < 1000000

instance (t : timeval) : Decidable t.norm := by
  unfold timeval.norm; infer_instance

/-- The `<sys/time.h>` macro `timercmp(a, b, <)`:
`(a->tv_sec == b->tv_sec) ? (a->tv_usec < b->tv_usec) : (a->tv_sec < b->tv_sec)`. -/
def timercmp_lt (a b : timeval) : Bool :=
  if a.tv_sec = b.tv_sec then decide (a.tv_usec < b.tv_usec)
  else decide (a.tv_sec < b.tv_sec)

/-- The `<sys/time.h>` macro `timeradd(a, b, result)`. -/
def timeradd (a b : timeval) : timeval :=
  let result : timeval := ⟨a.tv_sec + b.tv_sec, a.tv_usec + b.tv_usec⟩
  if result.tv_usec ≥ 1000000 then ⟨result.tv_sec + 1, result.tv_usec - 1000000⟩
  else result

/-- The `<sys/time.h>` macro `timersub(a, b, result)`. -/
def timersub (a b : timeval) : timeval :=
  let result : timeval := ⟨a.tv_sec - b.tv_sec, a.tv_usec - b.tv_usec⟩
  if result.tv_usec < 0 then ⟨result.tv_sec - 1, result.tv_usec + 1000000⟩
  else result

/-- The `<sys/time.h>` macro `timerclear(tvp)`. -/
def timerclear (_tvp : timeval) : timeval := ⟨0, 0⟩

/-! ## Timers -/

/-- The source's `timer_unset`: only `tv_sec` is assigned. -/
def timer_unset (tvp : timeval) : timeval := { tvp with tv_sec := -1 }

/-- The source's `timer_isset`. -/
def timer_isset (tvp : timeval) : Bool := tvp.tv_sec != -1

/-- The source's `TIMEVAL_USECS`; `/` and `%` are C's truncating division
and remainder. -/
def TIMEVAL_USECS (usecs : Int) : timeval :=
  ⟨Int.tdiv usecs 1000000, Int.tmod usecs 1000000⟩

/-- The source's `timer_set_delay(tvp_timer, tvp_now, usecs)`; the value is
what the macro stores in `*tvp_timer`. -/
def timer_set_delay (tvp_now : timeval) (usecs : Int) : timeval :=
  let tv_add := TIMEVAL_USECS usecs
  timeradd tv_add tvp_now

/-- The source's `_bfg_nullisnow`: a supplied time is used as it is, a null
pointer (`none`) stands for the time `clock` that `timer_set_now` writes. -/
def _bfg_nullisnow (clock : timeval) (tvp : Option timeval) : timeval :=
  match tvp with
  | some t => t
  | none => clock

/-- The conversion of an integer value to C's `int` of `iw` bits: the value
is kept when it is representable and otherwise reduced modulo `2 ^ iw` into
the range `[-2 ^ (iw - 1), 2 ^ (iw - 1))`. -/
def c_int (iw : Nat) (x : Int) : Int :=
  (x + 2 ^ (iw - 1)) % 2 ^ iw - 2 ^ (iw - 1)

/-- The source's `timer_elapsed`; `return tv.tv_sec;` converts the `time_t`
to the return type `int`, of `iw` bits. -/
def timer_elapsed (iw : Nat) (clock tvp_timer : timeval) (tvp_now : Option timeval) : Int :=
  let _tvp_now := _bfg_nullisnow clock tvp_now
  let tv := timersub _tvp_now tvp_timer
  c_int iw tv.tv_sec

/-- The source's `timer_passed`. -/
def timer_passed (clock tvp_timer : timeval) (tvp_now : Option timeval) : Bool :=
  if !timer_isset tvp_timer then false
  else
    let _tvp_now := _bfg_nullisnow clock tvp_now
    timercmp_lt tvp_timer _tvp_now

/-- The source's `reduce_timeout_to`; the value is the pair of `*tvp_timeout`
and `*tvp_time` after the call. -/
def reduce_timeout_to (tvp_timeout tvp_time : timeval) : timeval × timeval :=
  if !timer_isset tvp_time then (tvp_timeout, tvp_time)
  else if (!timer_isset tvp_timeout) || timercmp_lt tvp_time tvp_timeout then
    (tvp_time, tvp_time)
  else (tvp_timeout, tvp_time)

/-- The source's `select_timeout`; the value is the returned pointer (`none`
for `NULL`, else the new `*tvp_timeout`) paired with `*tvp_timeout` after
the call. -/
def select_timeout (tvp_timeout tvp_now : timeval) : Option timeval × timeval :=
  if !timer_isset tvp_timeout then (none, tvp_timeout)
  else
    let t := if timercmp_lt tvp_timeout tvp_now then timerclear tvp_timeout
             else timersub tvp_timeout tvp_now
    (some t, t)

/-- The source's `timer_set_delay_from_now(tvp_timer, usecs)`: `tv_now` is
the time `clock` that `timer_set_now` writes; the value is what the macro
stores in `*tvp_timer`. -/
def timer_set_delay_from_now (clock : timeval) (usecs : Int) : timeval :=
  let tv_now := clock
  timer_set_delay tv_now usecs

/-- The source's `reduce_timeout_to` applied to one `*tvp_timeout` once per
timer of a list, in the order of the list; the value is `*tvp_timeout` after
the last call. -/
def reduce_timeout_all (tvp_timeout : timeval) (timers : List timeval) : timeval :=
  timers.foldl (fun t c => (reduce_timeout_to t c).1) tvp_timeout

/-! ## Lemmas: heap and C library -/

/-- The empty heap is well formed. -/
theorem Heap.empty_wf (room : Nat) : (Heap.empty room).wf :=
  ⟨rfl, fun _ _ => rfl⟩

/-- The small sample heap is well formed. -/
theorem bytes_heap_small_wf : bytes_heap_small.wf := by
  refine ⟨rfl, ?_⟩
  intro a ha
  have h1 : a ≠ 1 := by
    intro h; rw [h] at ha; exact absurd ha (by decide)
  simp [bytes_heap_small, h1]

/-- The large sample block has `2 ^ 31` cells. -/
theorem bytes_block_large_length : bytes_block_large.length = 2 ^ 31 := by
  unfold bytes_block_large
  exact List.length_replicate _ _

/-- The large sample heap is well formed. -/
theorem bytes_heap_large_wf : bytes_heap_large.wf := by
  refine ⟨rfl, ?_⟩
  intro a ha
  have h2 : 2 < a := ha
  have h1 : a ≠ 1 := by omega
  have h3 : a ≠ 2 := by omega
  simp only [bytes_heap_large, h1, h3, if_false]

/-- The block of a backed buffer has exactly `allocsz` cells. -/
theorem bytes_backed_length (h : Heap) (b : bytes_t) (hwf : h.wf)
    (hb : bytes_backed h b) : (h.cells b.buf).length = b.allocsz := by
  unfold bytes_backed at hb
  unfold Heap.cells
  by_cases hp : b.buf = 0
  · simp only [hp, if_true] at hb
    simp [hp, hwf.1, hb]
  · simp only [hp, if_false] at hb
    cases hl : h.live b.buf with
    | none => simp [hl] at hb
    | some cs => simpa [hl] using hb

/-- A backed buffer with a non-zero capacity has a live block below `brk`. -/
theorem bytes_backed_live (h : Heap) (b : bytes_t) (hwf : h.wf)
    (hb : bytes_backed h b) (hpos : 0 < b.allocsz) :
    b.buf ≠ 0 ∧ b.buf ≤ h.brk ∧ h.live b.buf = some (h.cells b.buf) := by
  unfold bytes_backed at hb
  unfold Heap.cells
  by_cases hp : b.buf = 0
  · simp only [hp, if_true] at hb; omega
  · simp only [hp, if_false] at hb
    cases hl : h.live b.buf with
    | none => simp [hl] at hb
    | some cs =>
      refine ⟨hp, ?_, by simp⟩
      by_contra hlt
      have := hwf.2 b.buf (by omega)
      rw [hl] at this
      exact Option.noConfusion this

/-- The address of a backed buffer is never above `brk`. -/
theorem bytes_backed_le (h : Heap) (b : bytes_t) (hwf : h.wf)
    (hb : bytes_backed h b) : b.buf ≤ h.brk := by
  unfold bytes_backed at hb
  by_cases hp : b.buf = 0
  · omega
  · simp only [hp, if_false] at hb
    by_contra hlt
    have := hwf.2 b.buf (by omega)
    rw [this] at hb
    simp at hb

/-- Calling `realloc` on the block of a backed buffer, with room for the request:
the block moves to the fresh address `brk + 1`, keeps its cells and is
padded with indeterminate cells; no other block changes. -/
theorem realloc_backed (h : Heap) (b : bytes_t) (n : Nat) (hwf : h.wf)
    (hb : bytes_backed h b) (hroom : n ≤ h.room + b.allocsz) :
    ∃ h', realloc h b.buf n = some (h', h.brk + 1) ∧ h'.wf ∧ h'.brk = h.brk + 1 ∧
      h'.room + n = h.room + b.allocsz ∧
      h'.live (h.brk + 1)
        = some (((h.live b.buf).getD []).take n ++ List.replicate (n - b.allocsz) none) ∧
      (∀ q, q ≠ h.brk + 1 → q ≠ b.buf → h'.live q = h.live q) := by
  obtain ⟨hz, hfresh⟩ := hwf
  unfold bytes_backed at hb
  by_cases hp : b.buf = 0
  · simp only [hp, if_true] at hb
    have hr : n ≤ h.room := by omega
    refine ⟨(malloc h n).1, ?_, ?_, ?_, ?_, ?_, ?_⟩
    · simp [realloc, hp, malloc, hr]
    · refine ⟨?_, ?_⟩
      · simp [malloc, hr, Function.update, hz]
      · intro a ha
        simp only [malloc, hr, if_true] at ha ⊢
        rw [Function.update_noteq (by omega)]
        exact hfresh a (by omega)
    · simp [malloc, hr]
    · simp only [malloc, hr, if_true]; omega
    · simp [malloc, hr, hp, hz, hb]
    · intro q hq _
      simp only [malloc, hr, if_true]
      rw [Function.update_noteq hq]
  · simp only [hp, if_false] at hb
    cases hl : h.live b.buf with
    | none => simp [hl] at hb
    | some cs =>
      simp only [hl, Option.map_some', Option.some.injEq] at hb
      have hr : n ≤ h.room + cs.length := by omega
      have hne : b.buf ≠ h.brk + 1 := by
        intro he
        have := hfresh (h.brk + 1) (by omega)
        rw [← he, hl] at this
        exact Option.noConfusion this
      refine ⟨⟨Function.update (Function.update h.live b.buf none) (h.brk + 1)
                (some (cs.take n ++ List.replicate (n - cs.length) none)),
              h.brk + 1, h.room + cs.length - n⟩, ?_, ?_, ?_, ?_, ?_, ?_⟩
      · simp only [realloc, hp, if_false, hl, hr, if_true]
      · refine ⟨?_, ?_⟩
        · simp only []
          rw [Function.update_noteq (by omega), Function.update_noteq (Ne.symm hp)]
          exact hz
        · intro a ha
          simp only [] at ha ⊢
          rw [Function.update_noteq (by omega)]
          by_cases hab : a = b.buf
          · rw [hab, Function.update_same]
          · rw [Function.update_noteq hab]
            exact hfresh a (by omega)
      · rfl
      · simp only []; omega
      · simp only [Function.update_same, Option.getD_some, hb]
      · intro q hq hqb
        simp only []
        rw [Function.update_noteq hq, Function.update_noteq hqb]

/-- Calling `malloc` with room for the request: a fresh block of indeterminate
cells at `brk + 1`; no other block changes. -/
theorem malloc_ok (h : Heap) (n : Nat) (hwf : h.wf) (hroom : n ≤ h.room) :
    ∃ h', malloc h n = (h', h.brk + 1) ∧ h'.wf ∧ h'.brk = h.brk + 1 ∧
      h'.room + n = h.room ∧ h'.live (h.brk + 1) = some (List.replicate n none) ∧
      (∀ q, q ≠ h.brk + 1 → h'.live q = h.live q) := by
  obtain ⟨h', hre, hwf', hbrk, hroom', hlive, hframe⟩ :=
    realloc_backed h ⟨0, 0, 0⟩ n hwf (by simp [bytes_backed]) (by simpa using hroom)
  have hm : malloc h n = (h', h.brk + 1) := by
    simpa [realloc] using hre
  refine ⟨h', hm, hwf', hbrk, by simpa using hroom', ?_, ?_⟩
  · simpa [hwf.1] using hlive
  · intro q hq
    by_cases hq0 : q = 0
    · rw [hq0, hwf'.1, hwf.1]
    · exact hframe q hq hq0

/-- Calling `memcpy` between two distinct live blocks with the ranges in bounds. -/
theorem memcpy_live (h : Heap) (dst off src n : Nat) (d s : List (Option Nat))
    (hd : h.live dst = some d) (hs : h.live src = some s) (hne : dst ≠ src)
    (hd0 : dst ≠ 0) (hs0 : src ≠ 0) (hoff : off + n ≤ d.length) (hn : n ≤ s.length)
    (hwf : h.wf) :
    ∃ h', memcpy h dst off src n = some h' ∧
      h'.live dst = some (d.take off ++ s.take n ++ d.drop (off + n)) ∧
      (∀ q, q ≠ dst → h'.live q = h.live q) ∧ h'.brk = h.brk ∧ h'.room = h.room ∧
      h'.wf := by
  by_cases hz : n = 0
  · subst hz
    refine ⟨h, by simp [memcpy], ?_, fun _ _ => rfl, rfl, rfl, hwf⟩
    simp [hd]
  · refine ⟨⟨Function.update h.live dst
                (some (d.take off ++ s.take n ++ d.drop (off + n))), h.brk, h.room⟩,
      ?_, ?_, ?_, rfl, rfl, ?_⟩
    · simp [memcpy, hz, hd0, hs0, hne, hd, hs, hoff, hn]
    · simp
    · intro q hq
      simp only []
      rw [Function.update_noteq hq]
    · refine ⟨?_, ?_⟩
      · simp only []
        rw [Function.update_noteq (Ne.symm hd0)]
        exact hwf.1
      · intro a ha
        simp only [] at ha ⊢
        by_cases hab : a = dst
        · exfalso
          have := hwf.2 a ha
          rw [hab, hd] at this
          exact Option.noConfusion this
        · rw [Function.update_noteq hab]
          exact hwf.2 a ha

/-- The call `bytes_free` returns on a backed buffer. -/
theorem bytes_free_ok (h : Heap) (b : bytes_t) (hb : bytes_backed h b) :
    ∃ h', bytes_free h b = .ok (h', ⟨b.buf, 0, 0⟩) := by
  unfold bytes_backed at hb
  unfold bytes_free free
  by_cases hp : b.buf = 0
  · exact ⟨h, by simp [hp]⟩
  · simp only [hp, if_false] at hb ⊢
    cases hl : h.live b.buf with
    | none => simp [hl] at hb
    | some cs => exact ⟨_, rfl⟩

/-- Whenever `bytes_free` returns, length and capacity are both `0`. -/
theorem bytes_free_inv (h : Heap) (b : bytes_t) (h1 : Heap) (b1 : bytes_t)
    (hres : bytes_free h b = .ok (h1, b1)) : b1 = ⟨b.buf, 0, 0⟩ := by
  unfold bytes_free at hres
  cases hf : free h b.buf with
  | none => simp [hf] at hres
  | some h2 =>
    simp only [hf, Outcome.ok.injEq, Prod.mk.injEq] at hres
    exact hres.2.symm

/-! ## Lemmas: the two loops -/

/-- The doubling loop finishes without wrapping when the start value is
below `2 ^ (w - 1)`, the request is at most `2 ^ (w - 1)` and the fuel
covers the doublings needed; it stops at the first doubling that reaches
the request. -/
theorem bytes_resize_loop_some (w : Nat) :
    ∀ (fuel newsz a : Nat), 1 ≤ fuel → a < 2 ^ (w - 1) → newsz ≤ 2 ^ (w - 1) →
      newsz ≤ a * 2 ^ fuel →
      ∃ k, 1 ≤ k ∧ k ≤ fuel ∧ bytes_resize_loop w fuel newsz a = some (a * 2 ^ k) ∧
        newsz ≤ a * 2 ^ k ∧ a * 2 ^ k < 2 ^ w ∧ ∀ j, 1 ≤ j → j < k → a * 2 ^ j < newsz := by
  intro fuel
  induction fuel with
  | zero => intro newsz a h; omega
  | succ f ih =>
    intro newsz a _ ha hn hreach
    have hlt2 : a * 2 < 2 ^ w := by
      cases w with
      | zero => simp at ha; simp [ha]
      | succ v => simp at ha; rw [pow_succ]; omega
    have hmod : a * 2 % 2 ^ w = a * 2 := Nat.mod_eq_of_lt hlt2
    by_cases hgt : newsz > a * 2
    · have hf : 1 ≤ f := by
        rcases Nat.eq_zero_or_pos f with h0 | h0
        · rw [h0] at hreach; norm_num at hreach; omega
        · exact h0
      have hreach2 : newsz ≤ a * 2 * 2 ^ f := by
        rw [pow_succ] at hreach; nlinarith
      obtain ⟨k, hk1, hkf, hloop, hge, hlt, hmin⟩ :=
        ih newsz (a * 2) hf (by omega) hn hreach2
      refine ⟨k + 1, by omega, by omega, ?_, ?_, ?_, ?_⟩
      · simp only [bytes_resize_loop, hmod, hgt, if_true]
        rw [hloop, pow_succ]; congr 1; ring
      · rw [pow_succ]; calc newsz ≤ a * 2 * 2 ^ k := hge
          _ = a * (2 ^ k * 2) := by ring
      · rw [pow_succ]; calc a * (2 ^ k * 2) = a * 2 * 2 ^ k := by ring
          _ < 2 ^ w := hlt
      · intro j hj1 hjk
        rcases Nat.lt_or_ge 1 j with h1 | h1
        · have := hmin (j - 1) (by omega) (by omega)
          have hj : j = (j - 1) + 1 := by omega
          rw [hj, pow_succ]
          calc a * (2 ^ (j - 1) * 2) = a * 2 * 2 ^ (j - 1) := by ring
            _ < newsz := this
        · have hj : j = 1 := by omega
          subst hj; simpa using hgt
    · refine ⟨1, le_refl 1, by omega, ?_, ?_, ?_, ?_⟩
      · simp only [bytes_resize_loop, hmod, hgt, if_false, pow_one]
      · simp only [pow_one]; omega
      · simp only [pow_one]; omega
      · intro j hj1 hjk; omega

/-- Whenever the doubling loop finishes from a start value below
`2 ^ (w - 1)` for a request of at most `2 ^ (w - 1)`, its result is the first
doubling of the start value that reaches the request. -/
theorem bytes_resize_loop_inv (w : Nat) :
    ∀ (fuel newsz a r : Nat), a < 2 ^ (w - 1) → newsz ≤ 2 ^ (w - 1) →
      bytes_resize_loop w fuel newsz a = some r →
      ∃ k, 1 ≤ k ∧ r = a * 2 ^ k ∧ newsz ≤ r ∧ ∀ j, 1 ≤ j → j < k → a * 2 ^ j < newsz := by
  intro fuel
  induction fuel with
  | zero => intro newsz a r _ _ h; simp [bytes_resize_loop] at h
  | succ f ih =>
    intro newsz a r ha hn hloop
    have hlt2 : a * 2 < 2 ^ w := by
      cases w with
      | zero => simp at ha; simp [ha]
      | succ v => simp at ha; rw [pow_succ]; omega
    have hmod : a * 2 % 2 ^ w = a * 2 := Nat.mod_eq_of_lt hlt2
    by_cases hgt : newsz > a * 2
    · simp only [bytes_resize_loop, hmod, hgt, if_true] at hloop
      obtain ⟨k, hk1, hr, hge, hmin⟩ := ih newsz (a * 2) r (by omega) hn hloop
      refine ⟨k + 1, by omega, ?_, hge, ?_⟩
      · rw [hr, pow_succ]; ring
      · intro j hj1 hjk
        rcases Nat.lt_or_ge 1 j with h1 | h1
        · have := hmin (j - 1) (by omega) (by omega)
          have hj : j = (j - 1) + 1 := by omega
          rw [hj, pow_succ]
          calc a * (2 ^ (j - 1) * 2) = a * 2 * 2 ^ (j - 1) := by ring
            _ < newsz := this
        · have hj : j = 1 := by omega
          subst hj; simpa using hgt
    · simp only [bytes_resize_loop, hmod, hgt, if_false, Option.some.injEq] at hloop
      refine ⟨1, le_refl 1, by simp [← hloop], by omega, ?_⟩
      intro j hj1 hjk; omega

/-- Whenever the doubling loop finishes, its result holds the request. -/
theorem bytes_resize_loop_ge (w : Nat) :
    ∀ (fuel newsz a r : Nat), bytes_resize_loop w fuel newsz a = some r → newsz ≤ r := by
  intro fuel
  induction fuel with
  | zero => intro newsz a r h; simp [bytes_resize_loop] at h
  | succ f ih =>
    intro newsz a r hloop
    by_cases hgt : newsz > a * 2 % 2 ^ w
    · simp only [bytes_resize_loop, hgt, if_true] at hloop
      exact ih newsz _ r hloop
    · simp only [bytes_resize_loop, hgt, if_false, Option.some.injEq] at hloop
      omega

/-- Once the capacity has wrapped to `0` the doubling loop never finishes
for a non-zero request. -/
theorem bytes_resize_loop_zero (w : Nat) (newsz : Nat) (hn : 0 < newsz) :
    ∀ fuel, bytes_resize_loop w fuel newsz 0 = none := by
  intro fuel
  induction fuel with
  | zero => rfl
  | succ f ih => simp [bytes_resize_loop, hn, ih]

/-- From a power-of-two capacity below `2 ^ w` the doubling loop never
finishes for a request above `2 ^ (w - 1)`: the doublings stay below the
request until the product wraps to `0`. -/
theorem bytes_resize_loop_spin (w newsz : Nat) (hn : 2 ^ (w - 1) < newsz) :
    ∀ (fuel i : Nat), i < w → bytes_resize_loop w fuel newsz (2 ^ i) = none := by
  intro fuel
  induction fuel with
  | zero => intro i _; rfl
  | succ f ih =>
    intro i hi
    have hpos : 0 < newsz := Nat.lt_of_le_of_lt (Nat.zero_le _) hn
    rcases Nat.lt_or_ge (i + 1) w with hlt | hge
    · have hlt2 : 2 ^ (i + 1) < 2 ^ w := Nat.pow_lt_pow_right (by norm_num) hlt
      have hle : 2 ^ (i + 1) ≤ 2 ^ (w - 1) :=
        Nat.pow_le_pow_right (by norm_num) (by omega)
      have hmod : 2 ^ i * 2 % 2 ^ w = 2 ^ (i + 1) := by
        rw [← pow_succ]; exact Nat.mod_eq_of_lt hlt2
      simp only [bytes_resize_loop, hmod]
      rw [if_pos (by omega)]
      exact ih (i + 1) hlt
    · have hw : i + 1 = w := by omega
      have hmod : 2 ^ i * 2 % 2 ^ w = 0 := by
        rw [← pow_succ, hw]; exact Nat.mod_self _
      simp only [bytes_resize_loop, hmod]
      rw [if_pos hpos]
      exact bytes_resize_loop_zero w newsz hpos f

/-- The halving loop finishes for a non-empty source when the fuel exceeds
the capacity it starts from; it stops at the last halving that still holds
the length. -/
theorem bytes_cpy_loop_some :
    ∀ (fuel sz a : Nat), 1 ≤ sz → a < fuel →
      ∃ j, bytes_cpy_loop fuel sz a = some (a / 2 ^ j) ∧ a / 2 ^ j / 2 < sz ∧
        (sz ≤ a → sz ≤ a / 2 ^ j) ∧ ∀ i, i < j → sz ≤ a / 2 ^ i / 2 := by
  intro fuel
  induction fuel with
  | zero => intro sz a _ h; omega
  | succ f ih =>
    intro sz a hsz hf
    by_cases hle : sz ≤ a / 2
    · obtain ⟨j, hloop, hhalf, hge, hmin⟩ := ih sz (a / 2) hsz (by omega)
      refine ⟨j + 1, ?_, ?_, ?_, ?_⟩
      · simp only [bytes_cpy_loop, hle, if_true]
        rw [hloop, pow_succ, Nat.mul_comm, Nat.div_div_eq_div_mul]
      · rw [pow_succ, Nat.mul_comm, ← Nat.div_div_eq_div_mul]; exact hhalf
      · intro _
        rw [pow_succ, Nat.mul_comm, ← Nat.div_div_eq_div_mul]; exact hge hle
      · intro i hi
        cases i with
        | zero => simpa using hle
        | succ i =>
          have := hmin i (by omega)
          rw [pow_succ, Nat.mul_comm, ← Nat.div_div_eq_div_mul]; exact this
    · refine ⟨0, ?_, ?_, ?_, ?_⟩
      · simp [bytes_cpy_loop, hle]
      · simp; omega
      · intro h; simpa using h
      · intro i hi; omega

/-- Whenever the halving loop finishes from a capacity that holds the
length, its result still holds the length. -/
theorem bytes_cpy_loop_ge :
    ∀ (fuel sz a r : Nat), bytes_cpy_loop fuel sz a = some r → sz ≤ a → sz ≤ r := by
  intro fuel
  induction fuel with
  | zero => intro sz a r h; simp [bytes_cpy_loop] at h
  | succ f ih =>
    intro sz a r hloop hle
    by_cases hh : sz ≤ a / 2
    · simp only [bytes_cpy_loop, hh, if_true] at hloop
      exact ih sz _ r hloop hh
    · simp only [bytes_cpy_loop, hh, if_false, Option.some.injEq] at hloop
      omega

/-! ## Lemmas: single calls -/

/-- Calling `bytes_resize` within the capacity: only `sz` is assigned; the heap,
`buf` and `allocsz` are untouched, whatever the fuel. -/
theorem bytes_resize_within (w fuel : Nat) (h : Heap) (b : bytes_t) (newsz : Nat)
    (hle : newsz ≤ b.allocsz) :
    bytes_resize w fuel h b newsz = .ok (h, ⟨b.buf, newsz, b.allocsz⟩) := by
  simp [bytes_resize, hle]

/-- Unfolding `bytes_resize` beyond the capacity: the loop, then `realloc`,
then the check of its result. -/
theorem bytes_resize_beyond (w fuel : Nat) (h : Heap) (b : bytes_t) (newsz : Nat)
    (hgt : ¬ newsz ≤ b.allocsz) :
    bytes_resize w fuel h b newsz
      = match bytes_resize_loop w fuel newsz (if b.allocsz = 0 then 16 else b.allocsz) with
        | none => .spin
        | some a =>
          match realloc h b.buf a with
          | none => .undefined
          | some r => if r.2 = 0 then .abort else .ok (r.1, ⟨r.2, newsz, a⟩) := by
  unfold bytes_resize _bytes_alloc_failure
  simp only [hgt, if_false]
  by_cases hz : b.allocsz = 0
  · simp only [hz, if_true]
    cases bytes_resize_loop w fuel newsz 16 with
    | none => rfl
    | some a =>
      simp only []
      cases hre : realloc h b.buf a with
      | none => rfl
      | some r => rfl
  · simp only [hz, if_false]
    cases bytes_resize_loop w fuel newsz b.allocsz with
    | none => rfl
    | some a =>
      simp only []
      cases hre : realloc h b.buf a with
      | none => rfl
      | some r => rfl

/-- Calling `bytes_resize` beyond the capacity, for a backed buffer, a request of at
most `2 ^ (w - 1)`, enough fuel and enough room: the call returns, the new
capacity is the first doubling of the start value (16 for capacity 0, else
the old capacity) that reaches the request, and the block has moved to a
fresh address with its cells kept. -/
theorem bytes_resize_grow (w fuel : Nat) (h : Heap) (b : bytes_t) (newsz : Nat)
    (hw : 6 ≤ w) (hfuel : w ≤ fuel) (hwf : h.wf) (hb : bytes_backed h b)
    (hgt : b.allocsz < newsz) (hn : newsz ≤ 2 ^ (w - 1))
    (hroom : 32 + 2 * newsz ≤ h.room + b.allocsz) :
    ∃ k h', 1 ≤ k ∧
      bytes_resize w fuel h b newsz
        = .ok (h', ⟨h.brk + 1, newsz, (if b.allocsz = 0 then 16 else b.allocsz) * 2 ^ k⟩) ∧
      newsz ≤ (if b.allocsz = 0 then 16 else b.allocsz) * 2 ^ k ∧
      (∀ j, 1 ≤ j → j < k → (if b.allocsz = 0 then 16 else b.allocsz) * 2 ^ j < newsz) ∧
      h'.wf ∧ h'.brk = h.brk + 1 ∧
      h'.room + (if b.allocsz = 0 then 16 else b.allocsz) * 2 ^ k = h.room + b.allocsz ∧
      h'.live (h.brk + 1)
        = some ((h.live b.buf).getD [] ++
            List.replicate ((if b.allocsz = 0 then 16 else b.allocsz) * 2 ^ k - b.allocsz) none) ∧
      (∀ q, q ≠ h.brk + 1 → q ≠ b.buf → h'.live q = h.live q) := by
  have h16 : (16 : Nat) < 2 ^ (w - 1) := by
    calc (16 : Nat) < 2 ^ 5 := by norm_num
      _ ≤ 2 ^ (w - 1) := Nat.pow_le_pow_right (by norm_num) (by omega)
  have ha0 : (if b.allocsz = 0 then 16 else b.allocsz) < 2 ^ (w - 1) := by
    split <;> omega
  have ha0pos : 0 < (if b.allocsz = 0 then 16 else b.allocsz) := by
    split <;> omega
  have hreach : newsz ≤ (if b.allocsz = 0 then 16 else b.allocsz) * 2 ^ fuel := by
    calc newsz ≤ 2 ^ (w - 1) := hn
      _ ≤ 2 ^ fuel := Nat.pow_le_pow_right (by norm_num) (by omega)
      _ ≤ (if b.allocsz = 0 then 16 else b.allocsz) * 2 ^ fuel :=
          Nat.le_mul_of_pos_left _ ha0pos
  obtain ⟨k, hk1, _, hloop, hge, _, hmin⟩ :=
    bytes_resize_loop_some w fuel newsz _ (by omega) ha0 hn hreach
  have hcap : (if b.allocsz = 0 then 16 else b.allocsz) * 2 ^ k ≤ 32 + 2 * newsz := by
    rcases Nat.lt_or_ge 1 k with h1 | h1
    · have := hmin (k - 1) (by omega) (by omega)
      have hk : k = (k - 1) + 1 := by omega
      rw [hk, pow_succ]
      nlinarith
    · have hk : k = 1 := by omega
      subst hk
      split <;> omega
  have hlen : ((h.live b.buf).getD []).length = b.allocsz := by
    unfold bytes_backed at hb
    by_cases hp : b.buf = 0
    · simp only [hp, if_true] at hb
      simp [hp, hwf.1, hb]
    · simp only [hp, if_false] at hb
      cases hl : h.live b.buf with
      | none => simp [hl] at hb
      | some cs => simpa [hl] using hb
  obtain ⟨h', hre, hwf', hbrk, hroom', hlive, hframe⟩ :=
    realloc_backed h b ((if b.allocsz = 0 then 16 else b.allocsz) * 2 ^ k) hwf hb (by omega)
  refine ⟨k, h', hk1, ?_, hge, hmin, hwf', hbrk, hroom', ?_, hframe⟩
  · have hnle : ¬ newsz ≤ b.allocsz := by omega
    by_cases hz : b.allocsz = 0
    · simp only [hz, if_true] at hloop hre ⊢
      simp [bytes_resize, hz, hnle, hloop, hre, _bytes_alloc_failure]
      omega
    · simp only [hz, if_false] at hloop hre ⊢
      simp [bytes_resize, hz, hnle, hloop, hre, _bytes_alloc_failure]
  · rw [hlive, List.take_of_length_le (by omega)]

/-- Calling `bytes_resize` on a backed buffer, for a request of at most
`2 ^ (w - 1)`, enough fuel and enough room: the call returns a backed
buffer of the requested length whose block starts with the old cells; the
blocks of other buffers are untouched. -/
theorem bytes_resize_ok (w fuel : Nat) (h : Heap) (b : bytes_t) (newsz : Nat)
    (hw : 6 ≤ w) (hfuel : w ≤ fuel) (hwf : h.wf) (hb : bytes_backed h b)
    (hn : newsz ≤ 2 ^ (w - 1)) (hroom : 32 + 2 * newsz ≤ h.room + b.allocsz) :
    ∃ h1 b1, bytes_resize w fuel h b newsz = .ok (h1, b1) ∧
      b1.sz = newsz ∧ newsz ≤ b1.allocsz ∧ b.allocsz ≤ b1.allocsz ∧
      h1.wf ∧ bytes_backed h1 b1 ∧
      h1.room + b1.allocsz = h.room + b.allocsz ∧ h.brk ≤ h1.brk ∧
      (b1.buf = b.buf ∨ h.brk < b1.buf) ∧
      (∀ q, q ≤ h.brk → q ≠ b.buf → h1.live q = h.live q) ∧
      (h1.cells b1.buf).take b.allocsz = h.cells b.buf := by
  have hlen := bytes_backed_length h b hwf hb
  by_cases hle : newsz ≤ b.allocsz
  · refine ⟨h, ⟨b.buf, newsz, b.allocsz⟩, bytes_resize_within w fuel h b newsz hle,
      rfl, hle, le_refl _, hwf, hb, rfl, le_refl _, Or.inl rfl, fun _ _ _ => rfl, ?_⟩
    simp only []
    rw [← hlen, List.take_length]
  · obtain ⟨k, h1, hk1, hres, hge, _, hwf1, hbrk, hroom1, hlive, hframe⟩ :=
      bytes_resize_grow w fuel h b newsz hw hfuel hwf hb (by omega) hn hroom
    refine ⟨h1, _, hres, rfl, hge, ?_, hwf1, ?_, hroom1, by omega, Or.inr (by simp), ?_, ?_⟩
    · simp only []; omega
    · unfold bytes_backed
      simp only [Nat.add_one_ne_zero, if_false, hlive, Option.map_some',
        List.length_append, List.length_replicate, Option.some.injEq]
      unfold Heap.cells at hlen
      omega
    · intro q hq hqb
      exact hframe q (by omega) hqb
    · simp only [Heap.cells, hlive, Option.getD_some] at hlen ⊢
      rw [← hlen, List.take_left]

/-- Whenever `bytes_resize` returns for a request of at most `2 ^ (w - 1)`,
the length is the request and the capacity obeys the growth law. -/
theorem bytes_resize_cap (w fuel : Nat) (h : Heap) (b : bytes_t) (newsz : Nat)
    (h1 : Heap) (b1 : bytes_t) (hw : 6 ≤ w) (hn : newsz ≤ 2 ^ (w - 1))
    (hres : bytes_resize w fuel h b newsz = .ok (h1, b1)) :
    b1.sz = newsz ∧ bytes_grown b.allocsz newsz b1.allocsz := by
  unfold bytes_grown
  by_cases hle : newsz ≤ b.allocsz
  · rw [bytes_resize_within w fuel h b newsz hle] at hres
    simp only [Outcome.ok.injEq, Prod.mk.injEq] at hres
    simp [← hres.2, hle]
  · have h16 : (16 : Nat) < 2 ^ (w - 1) := by
      calc (16 : Nat) < 2 ^ 5 := by norm_num
        _ ≤ 2 ^ (w - 1) := Nat.pow_le_pow_right (by norm_num) (by omega)
    have ha0 : (if b.allocsz = 0 then 16 else b.allocsz) < 2 ^ (w - 1) := by
      split <;> omega
    simp only [hle, if_false]
    rw [bytes_resize_beyond w fuel h b newsz hle] at hres
    cases hloop : bytes_resize_loop w fuel newsz (if b.allocsz = 0 then 16 else b.allocsz) with
    | none => simp [hloop] at hres
    | some r =>
      obtain ⟨k, hk1, hr, hge, hmin⟩ := bytes_resize_loop_inv w fuel newsz _ r ha0 hn hloop
      simp only [hloop] at hres
      cases hre : realloc h b.buf r with
      | none => simp [hre] at hres
      | some q =>
        simp only [hre] at hres
        split at hres
        · exact Outcome.noConfusion hres
        · simp only [Outcome.ok.injEq, Prod.mk.injEq] at hres
          have hb1 : b1 = ⟨q.2, newsz, r⟩ := hres.2.symm
          refine ⟨by rw [hb1], k, hk1, by rw [hb1, hr], by rw [hb1]; exact hge, hmin⟩

/-- Whenever `bytes_resize` returns, for any input, the length is within
the capacity. -/
theorem bytes_resize_inv (w fuel : Nat) (h : Heap) (b : bytes_t) (newsz : Nat)
    (h1 : Heap) (b1 : bytes_t) (hres : bytes_resize w fuel h b newsz = .ok (h1, b1)) :
    b1.sz ≤ b1.allocsz := by
  by_cases hle : newsz ≤ b.allocsz
  · rw [bytes_resize_within w fuel h b newsz hle] at hres
    simp only [Outcome.ok.injEq, Prod.mk.injEq] at hres
    rw [← hres.2]; exact hle
  · rw [bytes_resize_beyond w fuel h b newsz hle] at hres
    cases hloop : bytes_resize_loop w fuel newsz (if b.allocsz = 0 then 16 else b.allocsz) with
    | none => simp [hloop] at hres
    | some r =>
      have hge := bytes_resize_loop_ge w fuel newsz _ r hloop
      simp only [hloop] at hres
      cases hre : realloc h b.buf r with
      | none => simp [hre] at hres
      | some q =>
        simp only [hre] at hres
        split at hres
        · exact Outcome.noConfusion hres
        · simp only [Outcome.ok.injEq, Prod.mk.injEq] at hres
          rw [← hres.2]; exact hge

/-- The growth law never lowers the capacity. -/
theorem bytes_grown_le (c n c' : Nat) (hg : bytes_grown c n c') : c ≤ c' := by
  unfold bytes_grown at hg
  by_cases hle : n ≤ c
  · simp only [hle, if_true] at hg; omega
  · simp only [hle, if_false] at hg
    obtain ⟨k, _, _, hge, _⟩ := hg
    omega

/-- Calling `bytes_cat` on two backed buffers with distinct blocks whose lengths sum
to at most `2 ^ (w - 1)`, with enough fuel and room: the call returns, `b`
holds its old bytes followed by those of `cat`, and the block of `cat` is
untouched. -/
theorem bytes_cat_ok (w fuel : Nat) (h : Heap) (b cat : bytes_t)
    (hw : 6 ≤ w) (hfuel : w ≤ fuel) (hwf : h.wf)
    (hb : bytes_backed h b) (hc : bytes_backed h cat)
    (hbs : b.sz ≤ b.allocsz) (hcs : cat.sz ≤ cat.allocsz)
    (hsep : cat.buf = 0 ∨ cat.buf ≠ b.buf)
    (hn : b.sz + cat.sz ≤ 2 ^ (w - 1))
    (hroom : 32 + 2 * (b.sz + cat.sz) ≤ h.room + b.allocsz) :
    ∃ h2 b2, bytes_cat w fuel h b cat = .ok (h2, b2) ∧
      b2.sz = b.sz + cat.sz ∧ b2.sz ≤ b2.allocsz ∧ b.allocsz ≤ b2.allocsz ∧
      bytes_data h2 b2 = bytes_data h b ++ bytes_data h cat ∧
      h2.live cat.buf = h.live cat.buf ∧
      h2.wf ∧ bytes_backed h2 b2 ∧
      h2.room + b2.allocsz = h.room + b.allocsz ∧ h.brk ≤ h2.brk ∧
      (b2.buf = b.buf ∨ h.brk < b2.buf) ∧
      (∀ q, q ≤ h.brk → q ≠ b.buf → h2.live q = h.live q) := by
  have hmod : (b.sz + cat.sz) % 2 ^ w = b.sz + cat.sz := by
    apply Nat.mod_eq_of_lt
    calc b.sz + cat.sz ≤ 2 ^ (w - 1) := hn
      _ < 2 ^ w := Nat.pow_lt_pow_right (by norm_num) (by omega)
  obtain ⟨h1, b1, hres, hsz1, hcap1, hmono, hwf1, hb1, hroom1, hbrk1, hbuf1, hframe1, hpre⟩ :=
    bytes_resize_ok w fuel h b (b.sz + cat.sz) hw hfuel hwf hb hn hroom
  have hlen1 := bytes_backed_length h1 b1 hwf1 hb1
  have hlenb := bytes_backed_length h b hwf hb
  have hcle := bytes_backed_le h cat hwf hc
  -- the block of `cat` after the resize
  have hcat1 : h1.live cat.buf = h.live cat.buf := by
    rcases hsep with h0 | hne
    · rw [h0, hwf1.1, hwf.1]
    · exact hframe1 cat.buf hcle hne
  have hdata1 : (h1.cells b1.buf).take b.sz = bytes_data h b := by
    have : (h1.cells b1.buf).take b.sz
        = ((h1.cells b1.buf).take b.allocsz).take b.sz := by
      rw [List.take_take, Nat.min_eq_left hbs]
    rw [this, hpre]; rfl
  by_cases hz : cat.sz = 0
  · refine ⟨h1, b1, ?_, by omega, by omega, hmono, ?_, hcat1, hwf1, hb1, hroom1, hbrk1,
      hbuf1, hframe1⟩
    · simp only [bytes_cat, bytes_len, hmod, hres]
      simp [memcpy, hz]
    · have : bytes_data h cat = [] := by simp [bytes_data, hz]
      rw [this, List.append_nil, ← hdata1]
      unfold bytes_data
      rw [hsz1, hz, Nat.add_zero]
  · have hcpos : 0 < cat.allocsz := by omega
    obtain ⟨hc0, _, hclive⟩ := bytes_backed_live h cat hwf hc hcpos
    obtain ⟨hb0, hb1le, hb1live⟩ := bytes_backed_live h1 b1 hwf1 hb1 (by omega)
    have hsep1 : b1.buf ≠ cat.buf := by
      rcases hbuf1 with he | hlt
      · rw [he]
        rcases hsep with h0 | hne
        · exact absurd h0 hc0
        · exact Ne.symm hne
      · omega
    have hclen := bytes_backed_length h cat hwf hc
    obtain ⟨h2, hcpy, hlive2, hframe2, hbrk2, hroom2, hwf2⟩ :=
      memcpy_live h1 b1.buf b.sz cat.buf cat.sz (h1.cells b1.buf) (h.cells cat.buf)
        hb1live (by rw [hcat1]; exact hclive) hsep1 hb0 hc0 (by omega) (by omega) hwf1
    refine ⟨h2, b1, ?_, hsz1, by omega, hmono, ?_, ?_, hwf2, ?_, by omega, by omega,
      hbuf1, ?_⟩
    · simp [bytes_cat, bytes_len, hmod, hres, hcpy]
    · have hA : (List.take b.sz (h1.cells b1.buf)
          ++ List.take cat.sz (h.cells cat.buf)).length = b.sz + cat.sz := by
        simp only [List.length_append, List.length_take]
        omega
      have hc2 : h2.cells b1.buf
          = List.take b.sz (h1.cells b1.buf) ++ List.take cat.sz (h.cells cat.buf)
              ++ List.drop (b.sz + cat.sz) (h1.cells b1.buf) := by
        show (h2.live b1.buf).getD [] = _
        rw [hlive2]; rfl
      show List.take b1.sz (h2.cells b1.buf) = _
      rw [hc2, hsz1, List.take_left' hA, hdata1]
      rfl
    · rw [hframe2 cat.buf (Ne.symm hsep1), hcat1]
    · unfold bytes_backed
      simp only [hb0, if_false, hlive2, Option.map_some', Option.some.injEq,
        List.length_append, List.length_take, List.length_drop]
      omega
    · intro q hq hqb
      have hq1 : q ≠ b1.buf := by
        rcases hbuf1 with he | hlt
        · rw [he]; exact hqb
        · omega
      rw [hframe2 q hq1]
      exact hframe1 q hq hqb

/-- Whenever `bytes_cat` returns, its buffer is the one the inner
`bytes_resize` returned. -/
theorem bytes_cat_resize (w fuel : Nat) (h : Heap) (b cat : bytes_t)
    (h2 : Heap) (b2 : bytes_t) (hres : bytes_cat w fuel h b cat = .ok (h2, b2)) :
    ∃ h1, bytes_resize w fuel h b ((b.sz + cat.sz) % 2 ^ w) = .ok (h1, b2) := by
  unfold bytes_cat bytes_len at hres
  simp only [] at hres
  cases hr : bytes_resize w fuel h b ((b.sz + cat.sz) % 2 ^ w) with
  | ok r =>
    obtain ⟨h1, b1⟩ := r
    simp only [hr] at hres
    cases hm : memcpy h1 b1.buf b.sz cat.buf cat.sz with
    | none => simp [hm] at hres
    | some h3 =>
      simp only [hm, Outcome.ok.injEq, Prod.mk.injEq] at hres
      exact ⟨h1, by rw [hres.2]⟩
  | abort => simp [hr] at hres
  | undefined => simp [hr] at hres
  | spin => simp [hr] at hres

/-- Calling `bytes_cpy` from a non-empty backed source within its capacity, with
enough fuel and room: the call returns a backed copy at a fresh address with
the bytes of the source; its capacity is the source capacity halved as long
as the half still holds the length. -/
theorem bytes_cpy_ok (fuel : Nat) (h : Heap) (dst src : bytes_t)
    (hwf : h.wf) (hs : bytes_backed h src) (hpos : 1 ≤ src.sz)
    (hle : src.sz ≤ src.allocsz) (hfuel : src.allocsz < fuel)
    (hroom : src.allocsz ≤ h.room) :
    ∃ h' j, bytes_cpy fuel h dst src
        = .ok (h', ⟨h.brk + 1, src.sz, src.allocsz / 2 ^ j⟩) ∧
      src.allocsz / 2 ^ j / 2 < src.sz ∧ src.sz ≤ src.allocsz / 2 ^ j ∧
      src.allocsz / 2 ^ j ≤ src.allocsz ∧
      (∀ i, i < j → src.sz ≤ src.allocsz / 2 ^ i / 2) ∧
      bytes_data h' ⟨h.brk + 1, src.sz, src.allocsz / 2 ^ j⟩ = bytes_data h src ∧
      h'.live src.buf = h.live src.buf ∧ h'.wf ∧
      bytes_backed h' ⟨h.brk + 1, src.sz, src.allocsz / 2 ^ j⟩ := by
  obtain ⟨j, hloop, hhalf, hge, hmin⟩ := bytes_cpy_loop_some fuel src.sz src.allocsz hpos hfuel
  have hge := hge hle
  have hcap : src.allocsz / 2 ^ j ≤ src.allocsz := Nat.div_le_self _ _
  obtain ⟨hm, hmal, hwfm, hbrkm, hroomm, hlivem, hframem⟩ :=
    malloc_ok h (src.allocsz / 2 ^ j) hwf (by omega)
  obtain ⟨hs0, hsle, hslive⟩ := bytes_backed_live h src hwf hs (by omega)
  have hslen := bytes_backed_length h src hwf hs
  have hne : h.brk + 1 ≠ src.buf := by omega
  obtain ⟨h', hcpy, hlive', hframe', hbrk', hroom', hwf'⟩ :=
    memcpy_live hm (h.brk + 1) 0 src.buf src.sz (List.replicate (src.allocsz / 2 ^ j) none)
      (h.cells src.buf) hlivem (by rw [hframem src.buf (Ne.symm hne)]; exact hslive) hne
      (by omega) hs0 (by simp; omega) (by omega) hwfm
  have hsz0 : ¬ src.sz = 0 := by omega
  have hc' : h'.cells (h.brk + 1)
      = List.take 0 (List.replicate (src.allocsz / 2 ^ j) none)
          ++ List.take src.sz (h.cells src.buf)
          ++ List.drop (0 + src.sz) (List.replicate (src.allocsz / 2 ^ j) none) := by
    show (h'.live (h.brk + 1)).getD [] = _
    rw [hlive']; rfl
  refine ⟨h', j, ?_, hhalf, hge, hcap, hmin, ?_, ?_, hwf', ?_⟩
  · simp only [bytes_cpy, hsz0, if_false, hloop, hmal, hcpy]
  · show List.take src.sz (h'.cells (h.brk + 1)) = List.take src.sz (h.cells src.buf)
    rw [hc']
    have hA : (List.take 0 (List.replicate (src.allocsz / 2 ^ j) (none : Option Nat))
        ++ List.take src.sz (h.cells src.buf)).length = src.sz := by
      simp only [List.take_zero, List.nil_append, List.length_take]
      omega
    rw [List.take_left' hA]
    simp
  · rw [hframe' src.buf (Ne.symm hne), hframem src.buf (Ne.symm hne)]
  · unfold bytes_backed
    simp only [Nat.add_one_ne_zero, if_false, hlive', Option.map_some', Option.some.injEq,
      List.length_append, List.length_take, List.length_drop, List.length_replicate]
    omega

/-- Whenever `bytes_cpy` returns for a source within its capacity, the
destination is within its capacity. -/
theorem bytes_cpy_inv (fuel : Nat) (h : Heap) (dst src : bytes_t)
    (h1 : Heap) (d1 : bytes_t) (hle : src.sz ≤ src.allocsz)
    (hres : bytes_cpy fuel h dst src = .ok (h1, d1)) : d1.sz ≤ d1.allocsz := by
  unfold bytes_cpy at hres
  simp only [] at hres
  by_cases hz : src.sz = 0
  · simp only [hz, if_true, Outcome.ok.injEq, Prod.mk.injEq] at hres
    rw [← hres.2]
  · simp only [hz, if_false] at hres
    cases hloop : bytes_cpy_loop fuel src.sz src.allocsz with
    | none => simp [hloop] at hres
    | some r =>
      have hge := bytes_cpy_loop_ge fuel src.sz src.allocsz r hloop hle
      simp only [hloop] at hres
      cases hm : memcpy (malloc h r).1 (malloc h r).2 0 src.buf src.sz with
      | none => simp [hm] at hres
      | some h3 =>
        simp only [hm, Outcome.ok.injEq, Prod.mk.injEq] at hres
        rw [← hres.2]; exact hge

/-! ## Lemmas: sequences of calls -/

/-- The growth law keeps the capacity law of a buffer grown from the empty
state. -/
theorem bytes_cap_law_step (m c n c' : Nat) (hlaw : bytes_cap_law m c)
    (hg : bytes_grown c n c') : bytes_cap_law (max m n) c' := by
  obtain ⟨hzero, hleast⟩ := hlaw
  unfold bytes_grown at hg
  by_cases hle : n ≤ c
  · simp only [hle, if_true] at hg
    subst hg
    refine ⟨fun h0 => hzero (by omega), fun hpos => ?_⟩
    have hm : 0 < m := by
      rcases Nat.eq_zero_or_pos m with h0 | h0
      · have := hzero h0; omega
      · exact h0
    obtain ⟨⟨k, hk, hmk⟩, hlb⟩ := hleast hm
    refine ⟨⟨k, hk, by omega⟩, ?_⟩
    rintro x ⟨i, hi, hx⟩
    exact hlb ⟨i, hi, by omega⟩
  · simp only [hle, if_false] at hg
    obtain ⟨k, hk1, hc', hge, hmin⟩ := hg
    refine ⟨fun h0 => by omega, fun _ => ?_⟩
    by_cases hz : c = 0
    · simp only [hz, if_true] at hc' hmin
      have hm0 : m = 0 := by
        rcases Nat.eq_zero_or_pos m with h0 | h0
        · exact h0
        · obtain ⟨⟨i, hi, hmi⟩, _⟩ := hleast h0
          omega
      refine ⟨⟨k - 1, ?_, by omega⟩, ?_⟩
      · have hk : k = (k - 1) + 1 := by omega
        rw [hc', hk, pow_succ]; simp; ring
      · rintro x ⟨i, hi, hx⟩
        have hki : k ≤ i + 1 := by
          by_contra hlt
          have := hmin (i + 1) (by omega) (by omega)
          rw [pow_succ] at this
          omega
        rw [hc', hi]
        calc 16 * 2 ^ k ≤ 16 * 2 ^ (i + 1) :=
              Nat.mul_le_mul_left _ (Nat.pow_le_pow_right (by norm_num) hki)
          _ = 32 * 2 ^ i := by rw [pow_succ]; ring
    · simp only [hz, if_false] at hc' hmin
      have hm : 0 < m := by
        rcases Nat.eq_zero_or_pos m with h0 | h0
        · exact absurd (hzero h0) hz
        · exact h0
      obtain ⟨⟨i0, hi0, hmi0⟩, _⟩ := hleast hm
      refine ⟨⟨i0 + k, ?_, by omega⟩, ?_⟩
      · rw [hc', hi0, pow_add]; ring
      · rintro x ⟨i, hi, hx⟩
        have hlt : 2 ^ i0 < 2 ^ i := by
          have : 32 * 2 ^ i0 < 32 * 2 ^ i := by omega
          omega
        have hi0i : i0 < i := (Nat.pow_lt_pow_iff_right (by norm_num)).mp hlt
        have hki : k ≤ i - i0 := by
          by_contra hlt2
          have := hmin (i - i0) (by omega) (by omega)
          have hx2 : c * 2 ^ (i - i0) = x := by
            rw [hi, hi0, mul_assoc, ← pow_add]
            congr 2; omega
          omega
        rw [hc', hi, hi0]
        calc 32 * 2 ^ i0 * 2 ^ k = 32 * 2 ^ (i0 + k) := by rw [pow_add]; ring
          _ ≤ 32 * 2 ^ i :=
              Nat.mul_le_mul_left _ (Nat.pow_le_pow_right (by norm_num) (by omega))

/-- Under the bound of an admissible sequence the `size_t` sum of
`bytes_cat` does not wrap. -/
theorem bytes_request_cat (w sz : Nat) (c : bytes_t) (hn : sz + c.sz ≤ 2 ^ (w - 1))
    (hw : 6 ≤ w) : (bytes_op.cat c).request w sz = sz + c.sz := by
  unfold bytes_op.request
  apply Nat.mod_eq_of_lt
  calc sz + c.sz ≤ 2 ^ (w - 1) := hn
    _ < 2 ^ w := Nat.pow_lt_pow_right (by norm_num) (by omega)

/-- Admissibility survives a change of heap that keeps the blocks at or
below the old `brk` other than the one at `p`, and a move of the buffer
under test to an address above the old `brk`. -/
theorem bytes_ops_ok_frame (w : Nat) (h h1 : Heap) (p p1 : Nat) (hwf : h.wf)
    (hframe : ∀ q, q ≤ h.brk → q ≠ p → h1.live q = h.live q)
    (hp : p1 = p ∨ h.brk < p1) :
    ∀ (ops : List bytes_op) (sz : Nat), bytes_ops_ok w h p ops sz →
      bytes_ops_ok w h1 p1 ops sz := by
  intro ops
  induction ops with
  | nil => intro sz _; trivial
  | cons op ops ih =>
    intro sz hok
    cases op with
    | resize newsz =>
      exact ⟨hok.1, ih newsz hok.2⟩
    | cat c =>
      obtain ⟨hn, hc, hcs, hsep, hrest⟩ := hok
      have hcle := bytes_backed_le h c hwf hc
      refine ⟨hn, ?_, hcs, ?_, ih (sz + c.sz) hrest⟩
      · unfold bytes_backed at hc ⊢
        by_cases hc0 : c.buf = 0
        · simpa [hc0] using hc
        · simp only [hc0, if_false] at hc ⊢
          rcases hsep with h0 | hne
          · exact absurd h0 hc0
          · rw [hframe c.buf hcle hne]; exact hc
      · rcases hsep with h0 | hne
        · exact Or.inl h0
        · rcases hp with he | hlt
          · right; rw [he]; exact hne
          · right; omega

/-- A prefix of an admissible sequence is admissible. -/
theorem bytes_ops_ok_take (w : Nat) (h : Heap) (p : Nat) :
    ∀ (ops : List bytes_op) (n sz : Nat), bytes_ops_ok w h p ops sz →
      bytes_ops_ok w h p (ops.take n) sz := by
  intro ops
  induction ops with
  | nil => intro n sz _; simp [bytes_ops_ok]
  | cons op ops ih =>
    intro n sz hok
    cases n with
    | zero => simp [bytes_ops_ok]
    | succ n =>
      cases op with
      | resize newsz => exact ⟨hok.1, ih n newsz hok.2⟩
      | cat c =>
        obtain ⟨hn, hc, hcs, hsep, hrest⟩ := hok
        exact ⟨hn, hc, hcs, hsep, ih n (sz + c.sz) hrest⟩

/-- A prefix of a sequence requests no more than the sequence. -/
theorem bytes_requested_take (w : Nat) :
    ∀ (ops : List bytes_op) (n sz : Nat),
      bytes_requested w (ops.take n) sz ≤ bytes_requested w ops sz := by
  intro ops
  induction ops with
  | nil => intro n sz; simp [bytes_requested]
  | cons op ops ih =>
    intro n sz
    cases n with
    | zero => simp [bytes_requested]
    | succ n =>
      have := ih n (op.request w sz)
      simp only [List.take_succ_cons, bytes_requested]
      omega

/-- An admissible sequence of calls on a backed buffer within its capacity,
with enough fuel and room, returns; the result is again a backed buffer
within its capacity, its length is the length requested last, its capacity
has not shrunk, and the capacity law of a buffer grown from the empty state
is kept. -/
theorem bytes_run_ok (w fuel : Nat) (hw : 6 ≤ w) (hfuel : w ≤ fuel) :
    ∀ (ops : List bytes_op) (h : Heap) (b : bytes_t) (m : Nat),
      h.wf → bytes_backed h b → b.sz ≤ b.allocsz →
      bytes_ops_ok w h b.buf ops b.sz →
      32 + 2 * bytes_requested w ops b.sz ≤ h.room + b.allocsz →
      bytes_cap_law m b.allocsz →
      ∃ h' b', bytes_run w fuel ops h b = .ok (h', b') ∧
        h'.wf ∧ bytes_backed h' b' ∧ b'.sz ≤ b'.allocsz ∧
        b'.sz = bytes_last_request w ops b.sz ∧ b.allocsz ≤ b'.allocsz ∧
        bytes_cap_law (max m (bytes_requested w ops b.sz)) b'.allocsz := by
  intro ops
  induction ops with
  | nil =>
    intro h b m hwf hb hbs _ _ hlaw
    exact ⟨h, b, rfl, hwf, hb, hbs, rfl, le_refl _, by simpa [bytes_requested] using hlaw⟩
  | cons op ops ih =>
    intro h b m hwf hb hbs hok hroom hlaw
    -- one call: it returns, with the frame facts and the growth law
    have hstep : ∃ h1 b1, bytes_step w fuel h b op = .ok (h1, b1) ∧
        b1.sz = op.request w b.sz ∧ b1.sz ≤ b1.allocsz ∧ b.allocsz ≤ b1.allocsz ∧
        h1.wf ∧ bytes_backed h1 b1 ∧ h1.room + b1.allocsz = h.room + b.allocsz ∧
        (b1.buf = b.buf ∨ h.brk < b1.buf) ∧
        (∀ q, q ≤ h.brk → q ≠ b.buf → h1.live q = h.live q) ∧
        bytes_grown b.allocsz (op.request w b.sz) b1.allocsz ∧
        op.request w b.sz ≤ 2 ^ (w - 1) ∧
        bytes_ops_ok w h b.buf ops (op.request w b.sz) := by
      cases op with
      | resize newsz =>
        obtain ⟨hn, hrest⟩ := hok
        have hr : 32 + 2 * newsz ≤ h.room + b.allocsz := by
          simp only [bytes_requested, bytes_op.request] at hroom
          omega
        obtain ⟨h1, b1, hres, hsz1, hcap1, hmono, hwf1, hb1, hroom1, _, hbuf1, hframe1, _⟩ :=
          bytes_resize_ok w fuel h b newsz hw hfuel hwf hb hn hr
        exact ⟨h1, b1, hres, hsz1, by omega, hmono, hwf1, hb1, hroom1, hbuf1, hframe1,
          (bytes_resize_cap w fuel h b newsz h1 b1 hw hn hres).2, hn, hrest⟩
      | cat c =>
        obtain ⟨hn, hc, hcs, hsep, hrest⟩ := hok
        have hreq := bytes_request_cat w b.sz c hn hw
        have hr : 32 + 2 * (b.sz + c.sz) ≤ h.room + b.allocsz := by
          simp only [bytes_requested, hreq] at hroom
          omega
        obtain ⟨h2, b2, hres, hsz2, hcap2, hmono, _, _, hwf2, hb2, hroom2, _, hbuf2, hframe2⟩ :=
          bytes_cat_ok w fuel h b c hw hfuel hwf hb hc hbs hcs hsep hn hr
        obtain ⟨h1, hres1⟩ := bytes_cat_resize w fuel h b c h2 b2 hres
        have hg := (bytes_resize_cap w fuel h b _ h1 b2 hw
          (by rw [← bytes_op.request.eq_2 w b.sz c, hreq]; exact hn) hres1).2
        refine ⟨h2, b2, hres, by rw [hsz2, hreq], hcap2, hmono, hwf2, hb2, hroom2, hbuf2,
          hframe2, hg, by rw [hreq]; exact hn, by rw [hreq]; exact hrest⟩
    obtain ⟨h1, b1, hres, hsz1, hcap1, hmono1, hwf1, hb1, hroom1, hbuf1, hframe1, hg, _, hrest⟩ :=
      hstep
    have hok1 : bytes_ops_ok w h1 b1.buf ops b1.sz := by
      rw [hsz1]
      exact bytes_ops_ok_frame w h h1 b.buf b1.buf hwf hframe1 hbuf1 ops _ hrest
    have hroom1' : 32 + 2 * bytes_requested w ops b1.sz ≤ h1.room + b1.allocsz := by
      rw [hsz1, hroom1]
      simp only [bytes_requested] at hroom
      omega
    obtain ⟨h', b', hrun, hwf', hb', hbs', hlast, hmono', hlaw'⟩ :=
      ih h1 b1 (max m (op.request w b.sz)) hwf1 hb1 hcap1 hok1 hroom1'
        (bytes_cap_law_step m b.allocsz _ b1.allocsz hlaw hg)
    refine ⟨h', b', ?_, hwf', hb', hbs', ?_, by omega, ?_⟩
    · simp only [bytes_run, hres]
      exact hrun
    · rw [hlast, hsz1]; rfl
    · rw [hsz1] at hlaw'
      simpa [bytes_requested, max_assoc] using hlaw'

/-! ## Lemmas: release, lengths of a run -/

/-- The call `bytes_free` on a backed buffer with storage returns the buffer
with its old `buf`, which now dangles: no block lives there any more. -/
theorem bytes_free_dangling (h : Heap) (b : bytes_t) (hb : bytes_backed h b)
    (hp : b.buf ≠ 0) :
    ∃ h1, bytes_free h b = .ok (h1, ⟨b.buf, 0, 0⟩) ∧ h1.live b.buf = none := by
  unfold bytes_backed at hb
  simp only [hp, if_false] at hb
  cases hl : h.live b.buf with
  | none => simp [hl] at hb
  | some cs =>
    refine ⟨⟨Function.update h.live b.buf none, h.brk, h.room + cs.length⟩, ?_, ?_⟩
    · simp only [bytes_free, free, hp, if_false, hl]
    · simp

/-- The call `bytes_free` on a dangling non-null `buf` is a double free. -/
theorem bytes_free_undefined (h : Heap) (b : bytes_t) (hp : b.buf ≠ 0)
    (hl : h.live b.buf = none) : bytes_free h b = .undefined := by
  simp only [bytes_free, free, hp, if_false, hl]

/-- The call `bytes_cpy` from an empty source returns the empty buffer with
`buf = NULL` and leaves the heap alone, whatever the fuel. -/
theorem bytes_cpy_empty (fuel : Nat) (h : Heap) (dst src : bytes_t) (hz : src.sz = 0) :
    bytes_cpy fuel h dst src = .ok (h, ⟨0, 0, 0⟩) := by
  simp [bytes_cpy, hz]

/-- Under the bound of an admissible sequence the length requested last is
the length the spec gives the buffer. -/
theorem bytes_last_request_eq (w : Nat) (hw : 6 ≤ w) (h : Heap) (p : Nat) :
    ∀ (ops : List bytes_op) (sz : Nat), bytes_ops_ok w h p ops sz →
      bytes_last_request w ops sz = bytes_final_len ops sz := by
  intro ops
  induction ops with
  | nil => intro sz _; rfl
  | cons op ops ih =>
    intro sz hok
    cases op with
    | resize newsz =>
      have := ih newsz hok.2
      simpa [bytes_last_request, bytes_final_len, bytes_op.request,
        bytes_op.length_after] using this
    | cat c =>
      obtain ⟨hn, _, _, _, hrest⟩ := hok
      have hreq := bytes_request_cat w sz c hn hw
      have := ih (sz + c.sz) hrest
      simp only [bytes_last_request, hreq]
      simpa [bytes_final_len, bytes_op.length_after, bytes_len] using this

/-- An admissible sequence of calls on any backed buffer within its
capacity, with enough fuel and room, returns; the result is again a backed
buffer within its capacity, its length is the length requested last and its
capacity has not shrunk. -/
theorem bytes_run_returns (w fuel : Nat) (hw : 6 ≤ w) (hfuel : w ≤ fuel) :
    ∀ (ops : List bytes_op) (h : Heap) (b : bytes_t),
      h.wf → bytes_backed h b → b.sz ≤ b.allocsz →
      bytes_ops_ok w h b.buf ops b.sz →
      32 + 2 * bytes_requested w ops b.sz ≤ h.room + b.allocsz →
      ∃ h' b', bytes_run w fuel ops h b = .ok (h', b') ∧
        h'.wf ∧ bytes_backed h' b' ∧ b'.sz ≤ b'.allocsz ∧
        b'.sz = bytes_last_request w ops b.sz ∧ b.allocsz ≤ b'.allocsz := by
  intro ops
  induction ops with
  | nil =>
    intro h b hwf hb hbs _ _
    exact ⟨h, b, rfl, hwf, hb, hbs, rfl, le_refl _⟩
  | cons op ops ih =>
    intro h b hwf hb hbs hok hroom
    have hstep : ∃ h1 b1, bytes_step w fuel h b op = .ok (h1, b1) ∧
        b1.sz = op.request w b.sz ∧ b1.sz ≤ b1.allocsz ∧ b.allocsz ≤ b1.allocsz ∧
        h1.wf ∧ bytes_backed h1 b1 ∧ h1.room + b1.allocsz = h.room + b.allocsz ∧
        (b1.buf = b.buf ∨ h.brk < b1.buf) ∧
        (∀ q, q ≤ h.brk → q ≠ b.buf → h1.live q = h.live q) ∧
        bytes_ops_ok w h b.buf ops (op.request w b.sz) := by
      cases op with
      | resize newsz =>
        obtain ⟨hn, hrest⟩ := hok
        have hr : 32 + 2 * newsz ≤ h.room + b.allocsz := by
          simp only [bytes_requested, bytes_op.request] at hroom
          omega
        obtain ⟨h1, b1, hres, hsz1, hcap1, hmono, hwf1, hb1, hroom1, _, hbuf1, hframe1, _⟩ :=
          bytes_resize_ok w fuel h b newsz hw hfuel hwf hb hn hr
        exact ⟨h1, b1, hres, hsz1, by omega, hmono, hwf1, hb1, hroom1, hbuf1, hframe1, hrest⟩
      | cat c =>
        obtain ⟨hn, hc, hcs, hsep, hrest⟩ := hok
        have hreq := bytes_request_cat w b.sz c hn hw
        have hr : 32 + 2 * (b.sz + c.sz) ≤ h.room + b.allocsz := by
          simp only [bytes_requested, hreq] at hroom
          omega
        obtain ⟨h2, b2, hres, hsz2, hcap2, hmono, _, _, hwf2, hb2, hroom2, _, hbuf2, hframe2⟩ :=
          bytes_cat_ok w fuel h b c hw hfuel hwf hb hc hbs hcs hsep hn hr
        exact ⟨h2, b2, hres, by rw [hsz2, hreq], hcap2, hmono, hwf2, hb2, hroom2, hbuf2,
          hframe2, by rw [hreq]; exact hrest⟩
    obtain ⟨h1, b1, hres, hsz1, hcap1, hmono1, hwf1, hb1, hroom1, hbuf1, hframe1, hrest⟩ :=
      hstep
    have hok1 : bytes_ops_ok w h1 b1.buf ops b1.sz := by
      rw [hsz1]
      exact bytes_ops_ok_frame w h h1 b.buf b1.buf hwf hframe1 hbuf1 ops _ hrest
    have hroom1' : 32 + 2 * bytes_requested w ops b1.sz ≤ h1.room + b1.allocsz := by
      rw [hsz1, hroom1]
      simp only [bytes_requested] at hroom
      omega
    obtain ⟨h', b', hrun, hwf', hb', hbs', hlast, hmono'⟩ :=
      ih h1 b1 hwf1 hb1 hcap1 hok1 hroom1'
    refine ⟨h', b', ?_, hwf', hb', hbs', ?_, by omega⟩
    · simp only [bytes_run, hres]
      exact hrun
    · rw [hlast, hsz1]; rfl

/-! ## Lemmas: time comparison -/

/-- For normalised operands the lexicographic `timercmp(a, b, <)` is the
strict order of the points in time. -/
theorem timercmp_lt_iff (a b : timeval) (ha : a.norm) (hb : b.norm) :
    timercmp_lt a b = true ↔ a.usecs < b.usecs := by
  unfold timeval.norm at ha hb
  unfold timercmp_lt timeval.usecs
  by_cases h : a.tv_sec = b.tv_sec
  · simp only [h, if_true, decide_eq_true_eq]; omega
  · simp only [h, if_false, decide_eq_true_eq]; omega

/-- Two normalised times that denote the same point in time are equal. -/
theorem timeval_eq_of_usecs (a b : timeval) (ha : a.norm) (hb : b.norm)
    (he : a.usecs = b.usecs) : a = b := by
  unfold timeval.norm at ha hb
  unfold timeval.usecs at he
  cases a with
  | mk asec ausec =>
    cases b with
    | mk bsec busec =>
      simp only [] at ha hb he
      have h1 : asec = bsec := by omega
      have h2 : ausec = busec := by omega
      rw [h1, h2]

/-- One call of `reduce_timeout_to` on a timeout that is set: the result is
set, is the timeout or the candidate, and is no later than the timeout nor,
when the candidate is set, than the candidate. -/
theorem reduce_timeout_to_set (cur c : timeval) (hs : timer_isset cur = true)
    (hcn : cur.norm) (hn : c.norm) :
    timer_isset (reduce_timeout_to cur c).1 = true ∧
    (reduce_timeout_to cur c).1.norm ∧
    ((reduce_timeout_to cur c).1 = cur ∨ (reduce_timeout_to cur c).1 = c) ∧
    (reduce_timeout_to cur c).1.usecs ≤ cur.usecs ∧
    (timer_isset c = true → (reduce_timeout_to cur c).1.usecs ≤ c.usecs) := by
  have hlt := timercmp_lt_iff c cur hn hcn
  unfold reduce_timeout_to
  cases h1 : timer_isset c <;> cases h3 : timercmp_lt c cur <;> simp_all
  omega

/-- One call of `reduce_timeout_to` on a timeout that is unset: a candidate
that is set is taken, any other leaves the timeout as it is. -/
theorem reduce_timeout_to_unset (cur c : timeval) (hs : timer_isset cur = false) :
    (timer_isset c = true → (reduce_timeout_to cur c).1 = c) ∧
    (timer_isset c = false → (reduce_timeout_to cur c).1 = cur) := by
  unfold reduce_timeout_to
  cases h1 : timer_isset c <;> simp_all

/-- Folding `reduce_timeout_to` over a list from a timeout that is set ends
in a set timer, the start or one of the list, that is no later than the
start nor than any set timer of the list. -/
theorem reduce_timeout_all_set :
    ∀ (l : List timeval) (cur : timeval), timer_isset cur = true → cur.norm →
      (∀ t ∈ l, t.norm) →
      timer_isset (reduce_timeout_all cur l) = true ∧
      (reduce_timeout_all cur l).norm ∧
      (reduce_timeout_all cur l = cur ∨ reduce_timeout_all cur l ∈ l) ∧
      (reduce_timeout_all cur l).usecs ≤ cur.usecs ∧
      ∀ t ∈ l, timer_isset t = true → (reduce_timeout_all cur l).usecs ≤ t.usecs := by
  intro l
  induction l with
  | nil =>
    intro cur hs hcn _
    exact ⟨hs, hcn, Or.inl rfl, le_refl _, fun t ht => absurd ht (List.not_mem_nil t)⟩
  | cons c l ih =>
    intro cur hs hcn hn
    obtain ⟨h1, h2, h3, h4, h5⟩ :=
      reduce_timeout_to_set cur c hs hcn (hn c (List.mem_cons_self c l))
    obtain ⟨i1, i2, i3, i4, i5⟩ :=
      ih (reduce_timeout_to cur c).1 h1 h2 (fun t ht => hn t (List.mem_cons_of_mem c ht))
    have hunf : reduce_timeout_all cur (c :: l)
        = reduce_timeout_all (reduce_timeout_to cur c).1 l := rfl
    rw [hunf]
    refine ⟨i1, i2, ?_, by omega, ?_⟩
    · rcases i3 with he | hm
      · rcases h3 with hc | hc
        · left; rw [he, hc]
        · right; rw [he, hc]; exact List.mem_cons_self c l
      · right; exact List.mem_cons_of_mem c hm
    · intro t ht hts
      rcases List.mem_cons.mp ht with he | hm
      · rw [he]; have := h5 (by rw [← he]; exact hts); omega
      · exact i5 t hm hts

/-- Folding `reduce_timeout_to` over a list from a timeout that is unset:
with no set timer in the list the timeout is left as it is; otherwise the
result is a set timer of the list that is no later than any set timer of the
list. -/
theorem reduce_timeout_all_unset :
    ∀ (l : List timeval) (cur : timeval), timer_isset cur = false →
      (∀ t ∈ l, t.norm) →
      ((∀ t ∈ l, timer_isset t = false) → reduce_timeout_all cur l = cur) ∧
      ((∃ t ∈ l, timer_isset t = true) →
        timer_isset (reduce_timeout_all cur l) = true ∧
        (reduce_timeout_all cur l).norm ∧
        reduce_timeout_all cur l ∈ l ∧
        ∀ t ∈ l, timer_isset t = true → (reduce_timeout_all cur l).usecs ≤ t.usecs) := by
  intro l
  induction l with
  | nil =>
    intro cur _ _
    refine ⟨fun _ => rfl, ?_⟩
    rintro ⟨t, ht, _⟩
    exact absurd ht (List.not_mem_nil t)
  | cons c l ih =>
    intro cur hs hn
    have hunf : reduce_timeout_all cur (c :: l)
        = reduce_timeout_all (reduce_timeout_to cur c).1 l := rfl
    obtain ⟨htake, hkeep⟩ := reduce_timeout_to_unset cur c hs
    have hnl : ∀ t ∈ l, t.norm := fun t ht => hn t (List.mem_cons_of_mem c ht)
    cases hc : timer_isset c with
    | false =>
      have hcur := hkeep hc
      obtain ⟨ih1, ih2⟩ := ih cur hs hnl
      rw [hunf, hcur]
      refine ⟨fun hall => ih1 (fun t ht => hall t (List.mem_cons_of_mem c ht)), ?_⟩
      rintro ⟨t, ht, hts⟩
      have hex : ∃ t ∈ l, timer_isset t = true := by
        rcases List.mem_cons.mp ht with he | hm
        · rw [he, hc] at hts; exact absurd hts (by simp)
        · exact ⟨t, hm, hts⟩
      obtain ⟨j1, j2, j3, j4⟩ := ih2 hex
      refine ⟨j1, j2, List.mem_cons_of_mem c j3, ?_⟩
      intro u hu hus
      rcases List.mem_cons.mp hu with he | hm
      · rw [he, hc] at hus; exact absurd hus (by simp)
      · exact j4 u hm hus
    | true =>
      have hcur := htake hc
      obtain ⟨i1, i2, i3, i4, i5⟩ :=
        reduce_timeout_all_set l c hc (hn c (List.mem_cons_self c l)) hnl
      rw [hunf, hcur]
      refine ⟨?_, fun _ => ⟨i1, i2, ?_, ?_⟩⟩
      · intro hall
        have := hall c (List.mem_cons_self c l)
        rw [hc] at this; exact absurd this (by simp)
      · rcases i3 with he | hm
        · rw [he]; exact List.mem_cons_self c l
        · exact List.mem_cons_of_mem c hm
      · intro u hu hus
        rcases List.mem_cons.mp hu with he | hm
        · rw [he]; exact i4
        · exact i5 u hm hus

/-- The seconds field of `timersub(a, b)` on normalised operands is the
floor of `a - b` measured in seconds. -/
theorem timersub_floor (a b : timeval) (ha : a.norm) (hb : b.norm) :
    (timersub a b).tv_sec = Int.fdiv (a.usecs - b.usecs) 1000000 := by
  unfold timeval.norm at ha hb
  rw [Int.fdiv_eq_ediv _ (by norm_num : (0 : Int) ≤ 1000000)]
  unfold timersub timeval.usecs
  simp only []
  split <;> simp only [] <;> omega

/-- The conversion to `int` keeps a value that `int` can represent. -/
theorem c_int_fits (iw : Nat) (x : Int) (hiw : 1 ≤ iw)
    (hlo : -2 ^ (iw - 1) ≤ x) (hhi : x < 2 ^ (iw - 1)) : c_int iw x = x := by
  obtain ⟨n, rfl⟩ : ∃ n, iw = n + 1 := ⟨iw - 1, by omega⟩
  unfold c_int
  simp only [Nat.add_sub_cancel] at hlo hhi ⊢
  have h2 : (2 : Int) ^ (n + 1) = 2 * 2 ^ n := by rw [pow_succ]; ring
  rw [h2]
  generalize (2 : Int) ^ n = H at hlo hhi ⊢
  rw [Int.emod_eq_of_lt (by omega) (by omega)]
  omega

/-! ## The claims -/

/-- C1 (as stated, refuted): a first `bytes_resize` to length 1 of the empty
buffer gives capacity 32, which is not the least value of the form
`16 * 2 ^ k` that is at least 1 (16 is smaller); and with a 32-bit `size_t`
a `bytes_resize` of the empty buffer to length `2 ^ 31 + 1` never returns,
whatever the fuel, so after that call there is no capacity at all. -/
theorem bytes_capacity_16_counterexample :
    ((bytes_run 64 64 [.resize 1] (Heap.empty 1000) ⟨0, 0, 0⟩).val.map (fun r => r.2.allocsz)
        = some 32 ∧
      bytes_requested 64 [.resize 1] 0 = 1 ∧
      ¬ IsLeast {x | ∃ k, x = 16 * 2 ^ k ∧ 1 ≤ x} 32) ∧
    (∀ fuel, bytes_run 32 fuel [.resize (2 ^ 31 + 1)] (Heap.empty (2 ^ 33)) ⟨0, 0, 0⟩
        = .spin) := by
  refine ⟨⟨by decide, by decide, ?_⟩, ?_⟩
  · intro hl
    have := hl.2 ⟨0, rfl, by norm_num⟩
    omega
  · intro fuel
    have hgt : ¬ (2 ^ 31 + 1 ≤ (⟨0, 0, 0⟩ : bytes_t).allocsz) := by
      simp only []; norm_num
    have hspin : bytes_resize 32 fuel (Heap.empty (2 ^ 33)) ⟨0, 0, 0⟩ (2 ^ 31 + 1) = .spin := by
      rw [bytes_resize_beyond 32 fuel _ _ _ hgt]
      have h16 : (if (⟨0, 0, 0⟩ : bytes_t).allocsz = 0 then 16
          else (⟨0, 0, 0⟩ : bytes_t).allocsz) = 2 ^ 4 := by
        norm_num
      rw [h16]
      simp only [bytes_resize_loop_spin 32 (2 ^ 31 + 1) (by norm_num) fuel 4 (by norm_num)]
    simp only [bytes_run, bytes_step, hspin]

/-- C1 (amended): for every admissible sequence of `bytes_resize` /
`bytes_cat` calls (requested lengths at most `2 ^ (w - 1)`) on a backed
buffer that starts with `sz = 0` and `allocsz = 0` (so `buf` is `NULL` or a
live block of no cells), with enough fuel and room, after each call (that
is, after every prefix `ops.take n` of the sequence) the calls have returned
and the capacity is `0` if the largest length requested so far is `0`, and
otherwise is the least value of the form `32 * 2 ^ k` that is at least the
largest length requested so far. -/
theorem bytes_run_capacity (w fuel : Nat) (h : Heap) (b : bytes_t)
    (ops : List bytes_op) (hw : 6 ≤ w) (hfuel : w ≤ fuel) (hwf : h.wf)
    (hb : bytes_backed h b) (hsz : b.sz = 0) (hcap : b.allocsz = 0)
    (hops : bytes_ops_ok w h b.buf ops 0)
    (hroom : 32 + 2 * bytes_requested w ops 0 ≤ h.room) (n : Nat) :
    ∃ h' b', bytes_run w fuel (ops.take n) h b = .ok (h', b') ∧
      (bytes_requested w (ops.take n) 0 = 0 → b'.allocsz = 0) ∧
      (0 < bytes_requested w (ops.take n) 0 →
        IsLeast {x | ∃ k, x = 32 * 2 ^ k ∧ bytes_requested w (ops.take n) 0 ≤ x}
          b'.allocsz) := by
  have hreq := bytes_requested_take w ops n 0
  obtain ⟨h', b', hrun, _, _, _, _, _, hlaw⟩ :=
    bytes_run_ok w fuel hw hfuel (ops.take n) h b 0 hwf hb (by omega)
      (by rw [hsz]; exact bytes_ops_ok_take w h b.buf ops n 0 hops)
      (by rw [hsz]; omega)
      ⟨fun _ => hcap, fun h0 => absurd h0 (lt_irrefl 0)⟩
  rw [hsz] at hlaw
  refine ⟨h', b', hrun, ?_, ?_⟩
  · intro h0
    exact hlaw.1 (by simpa using h0)
  · intro hpos
    have := hlaw.2 (by simpa using hpos)
    simpa using this

theorem bytes_run_capacity_witness :
    ∃ h' b', bytes_run 64 64
        (List.take 3 [.resize 1, .cat ⟨1, 2, 4⟩, .resize 40, .resize 5])
        bytes_heap_small ⟨0, 0, 0⟩ = .ok (h', b') ∧
      (bytes_requested 64
          (List.take 3 [.resize 1, .cat ⟨1, 2, 4⟩, .resize 40, .resize 5]) 0 = 0 →
        b'.allocsz = 0) ∧
      (0 < bytes_requested 64
          (List.take 3 [.resize 1, .cat ⟨1, 2, 4⟩, .resize 40, .resize 5]) 0 →
        IsLeast {x | ∃ k, x = 32 * 2 ^ k ∧
          bytes_requested 64
            (List.take 3 [.resize 1, .cat ⟨1, 2, 4⟩, .resize 40, .resize 5]) 0 ≤ x}
          b'.allocsz) :=
  bytes_run_capacity 64 64 bytes_heap_small ⟨0, 0, 0⟩
    [.resize 1, .cat ⟨1, 2, 4⟩, .resize 40, .resize 5]
    (by decide) (by decide) bytes_heap_small_wf (by decide) rfl rfl
    (by simp [bytes_ops_ok, bytes_backed, bytes_heap_small]) (by decide) 3

/-- C2: for every non-empty backed source within its capacity (with enough
fuel and room for the copy), `bytes_cpy(dst, src)` returns a destination of
the same length whose bytes are those of the source, and whose capacity
satisfies `dst.sz ≤ dst.allocsz ≤ src.allocsz`; the source block is
untouched. -/
theorem bytes_cpy_copies (fuel : Nat) (h : Heap) (dst src : bytes_t)
    (hwf : h.wf) (hs : bytes_backed h src) (hpos : 1 ≤ src.sz)
    (hle : src.sz ≤ src.allocsz) (hfuel : src.allocsz < fuel)
    (hroom : src.allocsz ≤ h.room) :
    ∃ h' dst', bytes_cpy fuel h dst src = .ok (h', dst') ∧
      dst'.sz = src.sz ∧
      bytes_data h' dst' = bytes_data h src ∧
      (bytes_data h' dst').length = dst'.sz ∧
      dst'.sz ≤ dst'.allocsz ∧ dst'.allocsz ≤ src.allocsz ∧
      bytes_data h' src = bytes_data h src := by
  obtain ⟨h', j, hres, _, hge, hcap, _, hdata, hsrc, _, _⟩ :=
    bytes_cpy_ok fuel h dst src hwf hs hpos hle hfuel hroom
  have hslen := bytes_backed_length h src hwf hs
  refine ⟨h', _, hres, rfl, hdata, ?_, hge, hcap, ?_⟩
  · rw [hdata]
    simp only [bytes_data, List.length_take]
    omega
  · simp only [bytes_data, Heap.cells, hsrc]

theorem bytes_cpy_copies_witness :
    ∃ h' dst', bytes_cpy 5 bytes_heap_small ⟨0, 0, 0⟩ ⟨1, 2, 4⟩ = .ok (h', dst') ∧
      dst'.sz = (⟨1, 2, 4⟩ : bytes_t).sz ∧
      bytes_data h' dst' = bytes_data bytes_heap_small ⟨1, 2, 4⟩ ∧
      (bytes_data h' dst').length = dst'.sz ∧
      dst'.sz ≤ dst'.allocsz ∧ dst'.allocsz ≤ (⟨1, 2, 4⟩ : bytes_t).allocsz ∧
      bytes_data h' ⟨1, 2, 4⟩ = bytes_data bytes_heap_small ⟨1, 2, 4⟩ :=
  bytes_cpy_copies 5 bytes_heap_small ⟨0, 0, 0⟩ ⟨1, 2, 4⟩ bytes_heap_small_wf
    (by decide) (by decide) (by decide) (by decide) (by decide)

/-- C3: `timer_passed(t, now)` is false whenever `t` is unset
(`tv_sec = -1`); for a set `t` and normalised operands it is true exactly
when `now` is strictly later than `t`, so it is false when `now = t`. -/
theorem timer_passed_spec (clock t now : timeval) (ht : t.norm) (hn : now.norm) :
    (t.tv_sec = -1 → timer_passed clock t (some now) = false) ∧
    (t.tv_sec ≠ -1 →
      (timer_passed clock t (some now) = true ↔ t.usecs < now.usecs)) ∧
    (now = t → timer_passed clock t (some now) = false) := by
  have key : t.tv_sec ≠ -1 →
      (timer_passed clock t (some now) = true ↔ t.usecs < now.usecs) := by
    intro hs
    have : timer_isset t = true := by simp [timer_isset, hs]
    simp [timer_passed, this, _bfg_nullisnow, timercmp_lt_iff t now ht hn]
  refine ⟨?_, key, ?_⟩
  · intro hu
    simp [timer_passed, timer_isset, hu]
  · intro he
    by_cases hs : t.tv_sec = -1
    · simp [timer_passed, timer_isset, hs]
    · have := key hs
      subst he
      cases hp : timer_passed clock now (some now)
      · rfl
      · have := this.mp hp
        omega

theorem timer_passed_spec_witness :
    (timer_passed ⟨0, 0⟩ ⟨5, 999999⟩ (some ⟨6, 0⟩) = true ↔
      (⟨5, 999999⟩ : timeval).usecs < (⟨6, 0⟩ : timeval).usecs) :=
  (timer_passed_spec ⟨0, 0⟩ ⟨5, 999999⟩ ⟨6, 0⟩ (by decide) (by decide)).2.1 (by decide)

/-- C4 (as stated, refuted): with a 32-bit `size_t`, two distinct backed
buffers of lengths `2 ^ 31` and `1`, whose sum does not overflow `size_t`:
`bytes_cat` never returns, whatever the fuel, because the capacity doubling
wraps to `0`. -/
theorem bytes_cat_wrap_counterexample :
    bytes_heap_large.wf ∧
    bytes_backed bytes_heap_large ⟨1, 2 ^ 31, 2 ^ 31⟩ ∧
    bytes_backed bytes_heap_large ⟨2, 1, 1⟩ ∧
    (⟨1, 2 ^ 31, 2 ^ 31⟩ : bytes_t).buf ≠ (⟨2, 1, 1⟩ : bytes_t).buf ∧
    (⟨1, 2 ^ 31, 2 ^ 31⟩ : bytes_t).sz + (⟨2, 1, 1⟩ : bytes_t).sz < 2 ^ 32 ∧
    ∀ fuel, bytes_cat 32 fuel bytes_heap_large ⟨1, 2 ^ 31, 2 ^ 31⟩ ⟨2, 1, 1⟩ = .spin := by
  refine ⟨bytes_heap_large_wf, ?_, ?_, by decide, by norm_num, ?_⟩
  · simp only [bytes_backed, bytes_heap_large]
    simp [bytes_block_large_length]
  · simp only [bytes_backed, bytes_heap_large]
    simp
  · intro fuel
    have hmod : (2 ^ 31 + 1) % 2 ^ 32 = 2 ^ 31 + 1 := by norm_num
    have hgt : ¬ (2 ^ 31 + 1 ≤ (⟨1, 2 ^ 31, 2 ^ 31⟩ : bytes_t).allocsz) := by
      simp only []; norm_num
    have hspin : bytes_resize 32 fuel bytes_heap_large ⟨1, 2 ^ 31, 2 ^ 31⟩ (2 ^ 31 + 1)
        = .spin := by
      rw [bytes_resize_beyond 32 fuel bytes_heap_large _ _ hgt]
      have hne : ¬ ((⟨1, 2 ^ 31, 2 ^ 31⟩ : bytes_t).allocsz = 0) := by
        simp only []; norm_num
      rw [if_neg hne]
      simp only [bytes_resize_loop_spin 32 (2 ^ 31 + 1) (by norm_num) fuel 31 (by norm_num)]
    simp only [bytes_cat, bytes_len, hmod, hspin]

/-- C4 (amended): for two backed buffers within their capacities whose
blocks are distinct and whose lengths sum to at most `2 ^ (w - 1)` (with
enough fuel and room), `bytes_cat(b, cat)` returns; `b` then has length
`b.sz + cat.sz` and holds its old bytes followed by the bytes of `cat`, and
the block of `cat` (so its bytes and its backing) is unchanged. -/
theorem bytes_cat_appends (w fuel : Nat) (h : Heap) (b cat : bytes_t)
    (hw : 6 ≤ w) (hfuel : w ≤ fuel) (hwf : h.wf)
    (hb : bytes_backed h b) (hc : bytes_backed h cat)
    (hbs : b.sz ≤ b.allocsz) (hcs : cat.sz ≤ cat.allocsz)
    (hsep : cat.buf = 0 ∨ cat.buf ≠ b.buf)
    (hn : b.sz + cat.sz ≤ 2 ^ (w - 1))
    (hroom : 32 + 2 * (b.sz + cat.sz) ≤ h.room + b.allocsz) :
    ∃ h' b', bytes_cat w fuel h b cat = .ok (h', b') ∧
      bytes_len b' = bytes_len b + bytes_len cat ∧
      bytes_data h' b' = bytes_data h b ++ bytes_data h cat ∧
      (bytes_data h' b').length = bytes_len b + bytes_len cat ∧
      h'.live cat.buf = h.live cat.buf ∧
      bytes_data h' cat = bytes_data h cat ∧
      bytes_backed h' cat := by
  obtain ⟨h2, b2, hres, hsz, _, _, hdata, hcat, _, _, _, _, _, _⟩ :=
    bytes_cat_ok w fuel h b cat hw hfuel hwf hb hc hbs hcs hsep hn hroom
  have hblen := bytes_backed_length h b hwf hb
  have hclen := bytes_backed_length h cat hwf hc
  refine ⟨h2, b2, hres, hsz, hdata, ?_, hcat, ?_, ?_⟩
  · rw [hdata]
    simp only [bytes_data, bytes_len, List.length_append, List.length_take]
    omega
  · simp only [bytes_data, Heap.cells, hcat]
  · unfold bytes_backed at hc ⊢
    rw [hcat]; exact hc

theorem bytes_cat_appends_witness :
    ∃ h' b', bytes_cat 64 64 bytes_heap_small ⟨0, 0, 0⟩ ⟨1, 2, 4⟩ = .ok (h', b') ∧
      bytes_len b' = bytes_len ⟨0, 0, 0⟩ + bytes_len ⟨1, 2, 4⟩ ∧
      bytes_data h' b'
        = bytes_data bytes_heap_small ⟨0, 0, 0⟩ ++ bytes_data bytes_heap_small ⟨1, 2, 4⟩ ∧
      (bytes_data h' b').length = bytes_len ⟨0, 0, 0⟩ + bytes_len ⟨1, 2, 4⟩ ∧
      h'.live (⟨1, 2, 4⟩ : bytes_t).buf = bytes_heap_small.live (⟨1, 2, 4⟩ : bytes_t).buf ∧
      bytes_data h' ⟨1, 2, 4⟩ = bytes_data bytes_heap_small ⟨1, 2, 4⟩ ∧
      bytes_backed h' ⟨1, 2, 4⟩ :=
  bytes_cat_appends 64 64 bytes_heap_small ⟨0, 0, 0⟩ ⟨1, 2, 4⟩ (by decide) (by decide)
    bytes_heap_small_wf (by decide) (by decide) (by decide) (by decide) (by decide)
    (by decide) (by decide)

/-- C5: `reduce_timeout_to(timeout, candidate)` never modifies `candidate`;
it sets `timeout` to `candidate` exactly when `candidate` is set and
(`timeout` is unset or `candidate` is strictly earlier than `timeout`), and
leaves `timeout` unchanged in every other case. -/
theorem reduce_timeout_to_spec (timeout cand : timeval)
    (ht : timeout.norm) (hc : cand.norm) :
    (reduce_timeout_to timeout cand).2 = cand ∧
    ((timer_isset cand = true ∧
        (timer_isset timeout = false ∨ cand.usecs < timeout.usecs)) →
      (reduce_timeout_to timeout cand).1 = cand) ∧
    (¬ (timer_isset cand = true ∧
        (timer_isset timeout = false ∨ cand.usecs < timeout.usecs)) →
      (reduce_timeout_to timeout cand).1 = timeout) := by
  have hlt := timercmp_lt_iff cand timeout hc ht
  unfold reduce_timeout_to
  cases h1 : timer_isset cand <;> cases h2 : timer_isset timeout <;>
    cases h3 : timercmp_lt cand timeout <;> simp_all

theorem reduce_timeout_to_spec_witness :
    (reduce_timeout_to ⟨9, 5⟩ ⟨9, 4⟩).2 = ⟨9, 4⟩ ∧
    (reduce_timeout_to ⟨9, 5⟩ ⟨9, 4⟩).1 = ⟨9, 4⟩ :=
  ⟨(reduce_timeout_to_spec ⟨9, 5⟩ ⟨9, 4⟩ (by decide) (by decide)).1,
   (reduce_timeout_to_spec ⟨9, 5⟩ ⟨9, 4⟩ (by decide) (by decide)).2.1 (by decide)⟩

/-- C6: for a normalised `base` and a delay `usecs ≥ 0`,
`timer_set_delay(timer, base, usecs)` stores a timer whose value in
microseconds is exactly `base`'s value plus `usecs`, and whose `tv_usec` is
again in `[0, 10^6)`. -/
theorem timer_set_delay_exact (base : timeval) (usecs : Int)
    (hb : base.norm) (hu : 0 ≤ usecs) :
    (timer_set_delay base usecs).usecs = base.usecs + usecs ∧
    (timer_set_delay base usecs).norm := by
  unfold timeval.norm at hb
  have hd : Int.tdiv usecs 1000000 = usecs / 1000000 :=
    Int.tdiv_eq_ediv hu (by norm_num)
  have hm : Int.tmod usecs 1000000 = usecs % 1000000 :=
    Int.tmod_eq_emod hu (by norm_num)
  unfold timer_set_delay TIMEVAL_USECS timeradd timeval.usecs timeval.norm
  simp only [hd, hm]
  split <;> simp only [] <;> omega

theorem timer_set_delay_exact_witness :
    (timer_set_delay ⟨5, 999999⟩ 1500001).usecs = (⟨5, 999999⟩ : timeval).usecs + 1500001 ∧
    (timer_set_delay ⟨5, 999999⟩ 1500001).norm :=
  timer_set_delay_exact ⟨5, 999999⟩ 1500001 (by decide) (by decide)

/-- C7 (as stated, refuted): with an `int` of 32 bits, the deadline at 0 s
and `now` at `2 ^ 31` s (both normalised), the deadline is not in the future
of `now` and the floor of `now - deadline` is `2147483648` seconds, yet
`timer_elapsed` returns `-2147483648`: a negative value, not the floor. -/
theorem timer_elapsed_narrow_counterexample :
    (⟨0, 0⟩ : timeval).norm ∧ (⟨2147483648, 0⟩ : timeval).norm ∧
    (⟨0, 0⟩ : timeval).usecs ≤ (⟨2147483648, 0⟩ : timeval).usecs ∧
    Int.fdiv ((⟨2147483648, 0⟩ : timeval).usecs - (⟨0, 0⟩ : timeval).usecs) 1000000
      = 2147483648 ∧
    timer_elapsed 32 ⟨0, 0⟩ ⟨0, 0⟩ (some ⟨2147483648, 0⟩) = -2147483648 ∧
    timer_elapsed 32 ⟨0, 0⟩ ⟨0, 0⟩ (some ⟨2147483648, 0⟩) < 0 := by
  decide

/-- C7 (amended): for normalised operands `timer_elapsed(deadline, now)` is
the floor of `now - deadline` measured in seconds, converted to the return
type `int`.  Provided that floor is representable in `int`, it is the value
returned, and the value returned is negative exactly when `deadline` is
strictly in the future of `now`, and non-negative otherwise. -/
theorem timer_elapsed_floor (iw : Nat) (clock deadline now : timeval)
    (hiw : 1 ≤ iw) (hd : deadline.norm) (hn : now.norm) :
    timer_elapsed iw clock deadline (some now)
      = c_int iw (Int.fdiv (now.usecs - deadline.usecs) 1000000) ∧
    (-2 ^ (iw - 1) ≤ Int.fdiv (now.usecs - deadline.usecs) 1000000 →
     Int.fdiv (now.usecs - deadline.usecs) 1000000 < 2 ^ (iw - 1) →
      timer_elapsed iw clock deadline (some now)
        = Int.fdiv (now.usecs - deadline.usecs) 1000000 ∧
      (timer_elapsed iw clock deadline (some now) * 1000000
          ≤ now.usecs - deadline.usecs ∧
        now.usecs - deadline.usecs
          < (timer_elapsed iw clock deadline (some now) + 1) * 1000000) ∧
      (timer_elapsed iw clock deadline (some now) < 0 ↔ now.usecs < deadline.usecs) ∧
      (0 ≤ timer_elapsed iw clock deadline (some now) ↔ deadline.usecs ≤ now.usecs)) := by
  have hraw : timer_elapsed iw clock deadline (some now)
      = c_int iw (Int.fdiv (now.usecs - deadline.usecs) 1000000) := by
    unfold timer_elapsed _bfg_nullisnow
    simp only []
    rw [timersub_floor now deadline hn hd]
  refine ⟨hraw, fun hlo hhi => ?_⟩
  rw [hraw, c_int_fits iw _ hiw hlo hhi]
  rw [Int.fdiv_eq_ediv _ (by norm_num : (0 : Int) ≤ 1000000)]
  refine ⟨rfl, ?_⟩
  omega

theorem timer_elapsed_floor_witness :
    timer_elapsed 32 ⟨0, 0⟩ ⟨0, 500000⟩ (some ⟨0, 0⟩)
        = Int.fdiv ((⟨0, 0⟩ : timeval).usecs - (⟨0, 500000⟩ : timeval).usecs) 1000000 ∧
    (timer_elapsed 32 ⟨0, 0⟩ ⟨0, 500000⟩ (some ⟨0, 0⟩) < 0
        ↔ (⟨0, 0⟩ : timeval).usecs < (⟨0, 500000⟩ : timeval).usecs) :=
  have h := (timer_elapsed_floor 32 ⟨0, 0⟩ ⟨0, 500000⟩ ⟨0, 0⟩
    (by decide) (by decide) (by decide)).2 (by decide) (by decide)
  ⟨h.1, h.2.2.1⟩

/-- C8: `sz ≤ allocsz` is an invariant of the byte buffer.  Whenever
`bytes_resize` returns, for any input, the buffer satisfies it; so does the
buffer returned by `bytes_cat`, by `bytes_cpy` (for a source that satisfies
it) and by `bytes_free`.  And the calls do return: on backed buffers, for
requested lengths of at most `2 ^ (w - 1)`, with enough fuel and room. -/
theorem bytes_invariant (w fuel : Nat) (h : Heap) (b other : bytes_t) (newsz : Nat) :
    (∀ h' b', bytes_resize w fuel h b newsz = .ok (h', b') → b'.sz ≤ b'.allocsz) ∧
    (∀ h' b', bytes_cat w fuel h b other = .ok (h', b') → b'.sz ≤ b'.allocsz) ∧
    (other.sz ≤ other.allocsz →
      ∀ h' b', bytes_cpy fuel h b other = .ok (h', b') → b'.sz ≤ b'.allocsz) ∧
    (∀ h' b', bytes_free h b = .ok (h', b') → b'.sz ≤ b'.allocsz) ∧
    (6 ≤ w → w ≤ fuel → h.wf → bytes_backed h b → newsz ≤ 2 ^ (w - 1) →
      32 + 2 * newsz ≤ h.room + b.allocsz →
      ∃ h' b', bytes_resize w fuel h b newsz = .ok (h', b') ∧ b'.sz ≤ b'.allocsz) ∧
    (6 ≤ w → w ≤ fuel → h.wf → bytes_backed h b → bytes_backed h other →
      b.sz ≤ b.allocsz → other.sz ≤ other.allocsz → (other.buf = 0 ∨ other.buf ≠ b.buf) →
      b.sz + other.sz ≤ 2 ^ (w - 1) → 32 + 2 * (b.sz + other.sz) ≤ h.room + b.allocsz →
      ∃ h' b', bytes_cat w fuel h b other = .ok (h', b') ∧ b'.sz ≤ b'.allocsz) ∧
    (h.wf → bytes_backed h other → other.sz ≤ other.allocsz → other.allocsz < fuel →
      other.allocsz ≤ h.room →
      ∃ h' b', bytes_cpy fuel h b other = .ok (h', b') ∧ b'.sz ≤ b'.allocsz) ∧
    (bytes_backed h b →
      ∃ h' b', bytes_free h b = .ok (h', b') ∧ b'.sz ≤ b'.allocsz) := by
  refine ⟨?_, ?_, ?_, ?_, ?_, ?_, ?_, ?_⟩
  · intro h' b' hres
    exact bytes_resize_inv w fuel h b newsz h' b' hres
  · intro h' b' hres
    obtain ⟨h1, hres1⟩ := bytes_cat_resize w fuel h b other h' b' hres
    exact bytes_resize_inv w fuel h b _ h1 b' hres1
  · intro hle h' b' hres
    exact bytes_cpy_inv fuel h b other h' b' hle hres
  · intro h' b' hres
    rw [bytes_free_inv h b h' b' hres]
  · intro hw hfuel hwf hb hn hroom
    obtain ⟨h1, b1, hres, hsz, hcap, _⟩ :=
      bytes_resize_ok w fuel h b newsz hw hfuel hwf hb hn hroom
    exact ⟨h1, b1, hres, by omega⟩
  · intro hw hfuel hwf hb hc hbs hcs hsep hn hroom
    obtain ⟨h2, b2, hres, _, hcap, _⟩ :=
      bytes_cat_ok w fuel h b other hw hfuel hwf hb hc hbs hcs hsep hn hroom
    exact ⟨h2, b2, hres, hcap⟩
  · intro hwf hs hle hfuel hroom
    by_cases hz : other.sz = 0
    · exact ⟨h, ⟨0, other.sz, 0⟩, by simp [bytes_cpy, hz], by simp [hz]⟩
    · obtain ⟨h', j, hres, _, hge, _⟩ :=
        bytes_cpy_ok fuel h b other hwf hs (by omega) hle hfuel hroom
      exact ⟨h', _, hres, hge⟩
  · intro hb
    obtain ⟨h', hres⟩ := bytes_free_ok h b hb
    exact ⟨h', _, hres, le_refl _⟩

theorem bytes_invariant_witness :
    (∃ h' b', bytes_resize 64 64 bytes_heap_small ⟨1, 2, 4⟩ 40 = .ok (h', b') ∧
      b'.sz ≤ b'.allocsz) ∧
    (∃ h' b', bytes_cat 64 64 bytes_heap_small ⟨0, 0, 0⟩ ⟨1, 2, 4⟩ = .ok (h', b') ∧
      b'.sz ≤ b'.allocsz) ∧
    (∃ h' b', bytes_cpy 64 bytes_heap_small ⟨0, 0, 0⟩ ⟨1, 2, 4⟩ = .ok (h', b') ∧
      b'.sz ≤ b'.allocsz) ∧
    (∃ h' b', bytes_free bytes_heap_small ⟨1, 2, 4⟩ = .ok (h', b') ∧
      b'.sz ≤ b'.allocsz) :=
  ⟨(bytes_invariant 64 64 bytes_heap_small ⟨1, 2, 4⟩ ⟨0, 0, 0⟩ 40).2.2.2.2.1
      (by decide) (by decide) bytes_heap_small_wf (by decide) (by decide) (by decide),
   (bytes_invariant 64 64 bytes_heap_small ⟨0, 0, 0⟩ ⟨1, 2, 4⟩ 0).2.2.2.2.2.1
      (by decide) (by decide) bytes_heap_small_wf (by decide) (by decide) (by decide)
      (by decide) (by decide) (by decide) (by decide),
   (bytes_invariant 64 64 bytes_heap_small ⟨0, 0, 0⟩ ⟨1, 2, 4⟩ 0).2.2.2.2.2.2.1
      bytes_heap_small_wf (by decide) (by decide) (by decide) (by decide),
   (bytes_invariant 64 64 bytes_heap_small ⟨1, 2, 4⟩ ⟨0, 0, 0⟩ 0).2.2.2.2.2.2.2
      (by decide)⟩

/-- C9: for a request of at most `2 ^ (w - 1)`, `bytes_resize` leaves the
heap, `buf` and the capacity unchanged when the request is within the
capacity `c`; when the request exceeds `c ≠ 0` the new capacity is
`c * 2 ^ k` for some `k ≥ 1` (and the call does return on a backed buffer
with enough fuel and room); hence the capacity never decreases under
`bytes_resize` or `bytes_cat`. -/
theorem bytes_capacity_monotone (w fuel : Nat) (h : Heap) (b : bytes_t) (newsz : Nat)
    (hw : 6 ≤ w) (hn : newsz ≤ 2 ^ (w - 1)) :
    (newsz ≤ b.allocsz →
      bytes_resize w fuel h b newsz = .ok (h, ⟨b.buf, newsz, b.allocsz⟩)) ∧
    (b.allocsz < newsz → b.allocsz ≠ 0 →
      ∀ h' b', bytes_resize w fuel h b newsz = .ok (h', b') →
        ∃ k, 1 ≤ k ∧ b'.allocsz = b.allocsz * 2 ^ k) ∧
    (b.allocsz < newsz → b.allocsz ≠ 0 → w ≤ fuel → h.wf → bytes_backed h b →
      32 + 2 * newsz ≤ h.room + b.allocsz →
      ∃ h' b' k, 1 ≤ k ∧ bytes_resize w fuel h b newsz = .ok (h', b') ∧
        b'.allocsz = b.allocsz * 2 ^ k) ∧
    (∀ h' b', bytes_resize w fuel h b newsz = .ok (h', b') → b.allocsz ≤ b'.allocsz) ∧
    (∀ cat h' b', (b.sz + cat.sz) % 2 ^ w ≤ 2 ^ (w - 1) →
      bytes_cat w fuel h b cat = .ok (h', b') → b.allocsz ≤ b'.allocsz) := by
  have hgrow : b.allocsz < newsz → b.allocsz ≠ 0 →
      ∀ h' b', bytes_resize w fuel h b newsz = .ok (h', b') →
        ∃ k, 1 ≤ k ∧ b'.allocsz = b.allocsz * 2 ^ k := by
    intro hgt hc h' b' hres
    have hg := (bytes_resize_cap w fuel h b newsz h' b' hw hn hres).2
    unfold bytes_grown at hg
    simp only [Nat.not_le.mpr hgt, if_false, hc] at hg
    obtain ⟨k, hk1, hk, _, _⟩ := hg
    exact ⟨k, hk1, hk⟩
  refine ⟨bytes_resize_within w fuel h b newsz, hgrow, ?_, ?_, ?_⟩
  · intro hgt hc hfuel hwf hb hroom
    obtain ⟨h1, b1, hres, _⟩ := bytes_resize_ok w fuel h b newsz hw hfuel hwf hb hn hroom
    obtain ⟨k, hk1, hk⟩ := hgrow hgt hc h1 b1 hres
    exact ⟨h1, b1, k, hk1, hres, hk⟩
  · intro h' b' hres
    exact bytes_grown_le _ _ _ (bytes_resize_cap w fuel h b newsz h' b' hw hn hres).2
  · intro cat h' b' hreq hres
    obtain ⟨h1, hres1⟩ := bytes_cat_resize w fuel h b cat h' b' hres
    exact bytes_grown_le _ _ _ (bytes_resize_cap w fuel h b _ h1 b' hw hreq hres1).2

theorem bytes_capacity_monotone_witness :
    bytes_resize 64 64 bytes_heap_small ⟨1, 4, 4⟩ 2 = .ok (bytes_heap_small, ⟨1, 2, 4⟩) ∧
    (∃ h' b' k, 1 ≤ k ∧ bytes_resize 64 64 bytes_heap_small ⟨1, 4, 4⟩ 9 = .ok (h', b') ∧
      b'.allocsz = (⟨1, 4, 4⟩ : bytes_t).allocsz * 2 ^ k) :=
  ⟨(bytes_capacity_monotone 64 64 bytes_heap_small ⟨1, 4, 4⟩ 2 (by decide) (by decide)).1
      (by decide),
   (bytes_capacity_monotone 64 64 bytes_heap_small ⟨1, 4, 4⟩ 9 (by decide) (by decide)).2.2.1
      (by decide) (by decide) (by decide) bytes_heap_small_wf (by decide) (by decide)⟩

/-- C10 (as stated, refuted): the empty buffer resized to length 1 has
capacity 32; its copy has capacity 1, which is not of the form
`16 * 2 ^ k`. -/
theorem bytes_cpy_chain_counterexample :
    (bytes_resize 64 64 (Heap.empty 1000) ⟨0, 0, 0⟩ 1).val.map (fun r => r.2)
      = some ⟨1, 1, 32⟩ ∧
    ((bytes_resize 64 64 (Heap.empty 1000) ⟨0, 0, 0⟩ 1).val.bind
        (fun r => (bytes_cpy 64 r.1 ⟨0, 0, 0⟩ r.2).val)).map (fun r => r.2.allocsz)
      = some 1 ∧
    ¬ ∃ k, 1 = 16 * 2 ^ k := by
  refine ⟨by decide, by decide, ?_⟩
  rintro ⟨k, hk⟩
  have : 1 ≤ 2 ^ k := Nat.one_le_two_pow
  omega

/-- C10 (amended): for every non-empty backed source within its capacity
(with enough fuel and room), `bytes_cpy(dst, src)` returns a destination
whose capacity is `src.allocsz` halved (integer division) as long as the
half still holds `src.sz`, so `dst.allocsz / 2 < src.sz ≤ dst.allocsz`; when
`src.allocsz` is a power of two this is the least power of two that is at
least `src.sz`. -/
theorem bytes_cpy_capacity (fuel : Nat) (h : Heap) (dst src : bytes_t)
    (hwf : h.wf) (hs : bytes_backed h src) (hpos : 1 ≤ src.sz)
    (hle : src.sz ≤ src.allocsz) (hfuel : src.allocsz < fuel)
    (hroom : src.allocsz ≤ h.room) :
    ∃ h' dst' j, bytes_cpy fuel h dst src = .ok (h', dst') ∧
      dst'.allocsz = src.allocsz / 2 ^ j ∧
      (∀ i, i < j → src.sz ≤ src.allocsz / 2 ^ i / 2) ∧
      dst'.allocsz / 2 < src.sz ∧ src.sz ≤ dst'.allocsz ∧
      (∀ e, src.allocsz = 2 ^ e →
        IsLeast {x | ∃ i, x = 2 ^ i ∧ src.sz ≤ x} dst'.allocsz) := by
  obtain ⟨h', j, hres, hhalf, hge, _, hmin, _, _, _, _⟩ :=
    bytes_cpy_ok fuel h dst src hwf hs hpos hle hfuel hroom
  refine ⟨h', _, j, hres, rfl, hmin, hhalf, hge, ?_⟩
  intro e he
  simp only [he] at hhalf hge ⊢
  have hje : j ≤ e := by
    by_contra hlt
    have : 2 ^ e / 2 ^ j = 0 :=
      Nat.div_eq_of_lt (Nat.pow_lt_pow_right (by norm_num) (by omega))
    omega
  have hdiv : 2 ^ e / 2 ^ j = 2 ^ (e - j) := Nat.pow_div hje (by norm_num)
  rw [hdiv] at hhalf hge ⊢
  refine ⟨⟨e - j, rfl, hge⟩, ?_⟩
  rintro x ⟨i, hi, hx⟩
  rw [hi]
  apply Nat.pow_le_pow_right (by norm_num)
  by_contra hlt
  have hstep : 2 ^ (i + 1) ≤ 2 ^ (e - j) := Nat.pow_le_pow_right (by norm_num) (by omega)
  rw [pow_succ] at hstep
  omega

theorem bytes_cpy_capacity_witness :
    ∃ h' dst' j, bytes_cpy 5 bytes_heap_small ⟨0, 0, 0⟩ ⟨1, 2, 4⟩ = .ok (h', dst') ∧
      dst'.allocsz = (⟨1, 2, 4⟩ : bytes_t).allocsz / 2 ^ j ∧
      (∀ i, i < j → (⟨1, 2, 4⟩ : bytes_t).sz ≤ (⟨1, 2, 4⟩ : bytes_t).allocsz / 2 ^ i / 2) ∧
      dst'.allocsz / 2 < (⟨1, 2, 4⟩ : bytes_t).sz ∧
      (⟨1, 2, 4⟩ : bytes_t).sz ≤ dst'.allocsz ∧
      (∀ e, (⟨1, 2, 4⟩ : bytes_t).allocsz = 2 ^ e →
        IsLeast {x | ∃ i, x = 2 ^ i ∧ (⟨1, 2, 4⟩ : bytes_t).sz ≤ x} dst'.allocsz) :=
  bytes_cpy_capacity 5 bytes_heap_small ⟨0, 0, 0⟩ ⟨1, 2, 4⟩ bytes_heap_small_wf
    (by decide) (by decide) (by decide) (by decide) (by decide)

/-- C11 (the code at the failing input): whenever `bytes_free` returns it
leaves `sz = 0` and `allocsz = 0`, and on a buffer with `buf = NULL` a second
call changes nothing; but on every backed buffer with storage the first call
leaves `buf` dangling and the second call is a double free, undefined
behaviour, as on the sample buffer at address 1. -/
theorem bytes_free_twice_undefined :
    (∀ (h : Heap) (b : bytes_t) (h1 : Heap) (b1 : bytes_t),
      bytes_free h b = .ok (h1, b1) → b1.sz = 0 ∧ b1.allocsz = 0) ∧
    (∀ (h : Heap) (b : bytes_t), b.buf = 0 →
      bytes_free h b = .ok (h, ⟨0, 0, 0⟩) ∧ bytes_free h ⟨0, 0, 0⟩ = .ok (h, ⟨0, 0, 0⟩)) ∧
    (∀ (h : Heap) (b : bytes_t), bytes_backed h b → b.buf ≠ 0 →
      ∃ h1, bytes_free h b = .ok (h1, ⟨b.buf, 0, 0⟩) ∧
        bytes_free h1 ⟨b.buf, 0, 0⟩ = .undefined) ∧
    (∃ h1, bytes_free bytes_heap_small ⟨1, 2, 4⟩ = .ok (h1, ⟨1, 0, 0⟩) ∧
      bytes_free h1 ⟨1, 0, 0⟩ = .undefined) := by
  have hgen : ∀ (h : Heap) (b : bytes_t), bytes_backed h b → b.buf ≠ 0 →
      ∃ h1, bytes_free h b = .ok (h1, ⟨b.buf, 0, 0⟩) ∧
        bytes_free h1 ⟨b.buf, 0, 0⟩ = .undefined := by
    intro h b hb hp
    obtain ⟨h1, hres, hl⟩ := bytes_free_dangling h b hb hp
    exact ⟨h1, hres, bytes_free_undefined h1 ⟨b.buf, 0, 0⟩ hp hl⟩
  refine ⟨?_, ?_, hgen, ?_⟩
  · intro h b h1 b1 hres
    rw [bytes_free_inv h b h1 b1 hres]
    exact ⟨rfl, rfl⟩
  · intro h b hp
    refine ⟨?_, ?_⟩
    · cases b with
      | mk buf sz allocsz =>
        simp only [] at hp
        subst hp
        simp [bytes_free, free]
    · simp [bytes_free, free]
  · exact hgen bytes_heap_small ⟨1, 2, 4⟩ (by decide) (by decide)

/-- C12 (as stated, refuted): with a 32-bit `size_t`, `bytes_resize` of the
backed sample buffer (capacity 4) to length `2 ^ 31 + 1` never returns,
whatever the fuel, so there is no length after the call. -/
theorem bytes_len_wrap_counterexample :
    bytes_heap_small.wf ∧ bytes_backed bytes_heap_small ⟨1, 2, 4⟩ ∧
    (2 ^ 31 + 1 < 2 ^ 32) ∧
    ∀ fuel, bytes_run 32 fuel [.resize (2 ^ 31 + 1)] bytes_heap_small ⟨1, 2, 4⟩ = .spin := by
  refine ⟨bytes_heap_small_wf, by decide, by norm_num, ?_⟩
  intro fuel
  have hgt : ¬ (2 ^ 31 + 1 ≤ (⟨1, 2, 4⟩ : bytes_t).allocsz) := by
    simp only []; norm_num
  have hspin : bytes_resize 32 fuel bytes_heap_small ⟨1, 2, 4⟩ (2 ^ 31 + 1) = .spin := by
    rw [bytes_resize_beyond 32 fuel _ _ _ hgt]
    have h4 : (if (⟨1, 2, 4⟩ : bytes_t).allocsz = 0 then 16
        else (⟨1, 2, 4⟩ : bytes_t).allocsz) = 2 ^ 2 := by
      norm_num
    rw [h4]
    simp only [bytes_resize_loop_spin 32 (2 ^ 31 + 1) (by norm_num) fuel 2 (by norm_num)]
  simp only [bytes_run, bytes_step, hspin]

/-- C12 (amended): for every backed buffer within its capacity and every
admissible sequence of `bytes_resize` / `bytes_cat` calls (requested lengths
at most `2 ^ (w - 1)`), with enough fuel and room, after each call (after
every prefix `ops.take n`) the calls have returned and `bytes_len` is the
requested length: `newsz` after `bytes_resize(b, newsz)`, the old length plus
`bytes_len(cat)` after `bytes_cat(b, cat)`, whether or not the capacity
grew. -/
theorem bytes_run_length (w fuel : Nat) (h : Heap) (b : bytes_t)
    (ops : List bytes_op) (hw : 6 ≤ w) (hfuel : w ≤ fuel) (hwf : h.wf)
    (hb : bytes_backed h b) (hbs : b.sz ≤ b.allocsz)
    (hops : bytes_ops_ok w h b.buf ops b.sz)
    (hroom : 32 + 2 * bytes_requested w ops b.sz ≤ h.room + b.allocsz) (n : Nat) :
    ∃ h' b', bytes_run w fuel (ops.take n) h b = .ok (h', b') ∧
      bytes_len b' = bytes_final_len (ops.take n) (bytes_len b) ∧
      (∀ op, ops.take (n + 1) = ops.take n ++ [op] →
        ∃ h'' b'', bytes_run w fuel (ops.take (n + 1)) h b = .ok (h'', b'') ∧
          bytes_len b'' = op.length_after (bytes_len b')) := by
  have hlen : ∀ m, ∃ h' b', bytes_run w fuel (ops.take m) h b = .ok (h', b') ∧
      bytes_len b' = bytes_final_len (ops.take m) (bytes_len b) := by
    intro m
    have hreq := bytes_requested_take w ops m b.sz
    have hok := bytes_ops_ok_take w h b.buf ops m b.sz hops
    obtain ⟨h', b', hrun, _, _, _, hlast, _⟩ :=
      bytes_run_returns w fuel hw hfuel (ops.take m) h b hwf hb hbs hok (by omega)
    exact ⟨h', b', hrun, by
      rw [bytes_len, hlast, bytes_last_request_eq w hw h b.buf _ _ hok]; rfl⟩
  obtain ⟨h', b', hrun, hl⟩ := hlen n
  refine ⟨h', b', hrun, hl, ?_⟩
  intro op hop
  obtain ⟨h'', b'', hrun', hl'⟩ := hlen (n + 1)
  refine ⟨h'', b'', hrun', ?_⟩
  rw [hl', hop, hl]
  simp [bytes_final_len, List.foldl_append]

theorem bytes_run_length_witness :
    ∃ h' b', bytes_run 64 64
        (List.take 2 [bytes_op.resize 40, bytes_op.cat ⟨1, 2, 4⟩, bytes_op.resize 5])
        bytes_heap_small ⟨0, 0, 0⟩ = .ok (h', b') ∧
      bytes_len b' = bytes_final_len
        (List.take 2 [bytes_op.resize 40, bytes_op.cat ⟨1, 2, 4⟩, bytes_op.resize 5]) (bytes_len ⟨0, 0, 0⟩) ∧
      (∀ op,
        List.take (2 + 1) [bytes_op.resize 40, bytes_op.cat ⟨1, 2, 4⟩, bytes_op.resize 5]
          = List.take 2 [bytes_op.resize 40, bytes_op.cat ⟨1, 2, 4⟩, bytes_op.resize 5]
              ++ [op] →
        ∃ h'' b'', bytes_run 64 64
            (List.take (2 + 1) [bytes_op.resize 40, bytes_op.cat ⟨1, 2, 4⟩, bytes_op.resize 5])
            bytes_heap_small ⟨0, 0, 0⟩ = .ok (h'', b'') ∧
          bytes_len b'' = op.length_after (bytes_len b')) :=
  bytes_run_length 64 64 bytes_heap_small ⟨0, 0, 0⟩
    [bytes_op.resize 40, bytes_op.cat ⟨1, 2, 4⟩, bytes_op.resize 5]
    (by decide) (by decide) bytes_heap_small_wf (by decide) (by decide)
    (by simp [bytes_ops_ok, bytes_backed, bytes_heap_small]) (by decide) 2

/-- C13: the unset state is a sentinel distinct from the zero epoch.  For
every `t`, `timer_isset(timer_unset(t))` is false and `timer_unset` changes
only `tv_sec` (to `-1`; `tv_usec` is kept); the zero epoch is reported as
set, and `timer_isset` is true exactly for the timevals with
`tv_sec ≠ -1`. -/
theorem timer_unset_sentinel (t : timeval) :
    timer_isset (timer_unset t) = false ∧
    timer_unset t = ⟨-1, t.tv_usec⟩ ∧
    timer_isset ⟨0, 0⟩ = true ∧
    (⟨0, 0⟩ : timeval) ≠ timer_unset ⟨0, 0⟩ ∧
    (t.tv_sec ≠ -1 → timer_isset t = true) ∧
    (timer_isset t = true → t.tv_sec ≠ -1) := by
  refine ⟨by simp [timer_isset, timer_unset], rfl, by decide, by decide, ?_, ?_⟩
  · intro h; simp [timer_isset, h]
  · intro h; simpa [timer_isset] using h

theorem timer_unset_sentinel_witness :
    timer_isset ⟨0, 999999⟩ = true ∧ timer_isset (timer_unset ⟨0, 999999⟩) = false :=
  ⟨(timer_unset_sentinel ⟨0, 999999⟩).2.2.2.2.1 (by decide),
   (timer_unset_sentinel ⟨0, 999999⟩).1⟩

/-- C14: starting from an unset timeout and applying `reduce_timeout_to`
once per timer of a list of normalised timers, the timeout is left unset
(indeed untouched) exactly when no timer of the list is set; otherwise it
ends as a set timer of the list that is no later than any set timer of the
list, the earliest one; and the result is the same for every reordering of
the list. -/
theorem reduce_timeout_all_earliest (t0 : timeval) (timers : List timeval)
    (h0 : timer_isset t0 = false) (hn : ∀ t ∈ timers, t.norm) :
    (timer_isset (reduce_timeout_all t0 timers) = false ↔
      ∀ t ∈ timers, timer_isset t = false) ∧
    ((∀ t ∈ timers, timer_isset t = false) → reduce_timeout_all t0 timers = t0) ∧
    ((∃ t ∈ timers, timer_isset t = true) →
      reduce_timeout_all t0 timers ∈ timers ∧
      timer_isset (reduce_timeout_all t0 timers) = true ∧
      ∀ t ∈ timers, timer_isset t = true →
        (reduce_timeout_all t0 timers).usecs ≤ t.usecs) ∧
    (∀ timers', timers'.Perm timers →
      reduce_timeout_all t0 timers' = reduce_timeout_all t0 timers) := by
  obtain ⟨hnone, hsome⟩ := reduce_timeout_all_unset timers t0 h0 hn
  have hdich : (∀ t ∈ timers, timer_isset t = false) ∨ ∃ t ∈ timers, timer_isset t = true := by
    by_cases hex : ∃ t ∈ timers, timer_isset t = true
    · exact Or.inr hex
    · left
      intro t ht
      cases hts : timer_isset t with
      | false => rfl
      | true => exact absurd ⟨t, ht, hts⟩ hex
  refine ⟨⟨?_, ?_⟩, hnone, ?_, ?_⟩
  · intro hr
    rcases hdich with hall | hex
    · exact hall
    · have := (hsome hex).1
      rw [hr] at this; exact absurd this (by simp)
  · intro hall
    rw [hnone hall]; exact h0
  · intro hex
    obtain ⟨h1, _, h3, h4⟩ := hsome hex
    exact ⟨h3, h1, h4⟩
  · intro timers' hp
    have hn' : ∀ t ∈ timers', t.norm := fun t ht => hn t (hp.mem_iff.mp ht)
    obtain ⟨hnone', hsome'⟩ := reduce_timeout_all_unset timers' t0 h0 hn'
    rcases hdich with hall | hex
    · rw [hnone hall, hnone' (fun t ht => hall t (hp.mem_iff.mp ht))]
    · obtain ⟨_, a2, a3, a4⟩ := hsome hex
      obtain ⟨t, ht, hts⟩ := hex
      obtain ⟨b1, b2, b3, b4⟩ := hsome' ⟨t, hp.mem_iff.mpr ht, hts⟩
      have a1 := (hsome ⟨t, ht, hts⟩).1
      apply timeval_eq_of_usecs _ _ b2 a2
      have hle1 := a4 _ (hp.mem_iff.mp b3) b1
      have hle2 := b4 _ (hp.mem_iff.mpr a3) a1
      omega

theorem reduce_timeout_all_earliest_witness :
    reduce_timeout_all ⟨-1, 0⟩ [⟨7, 5⟩, ⟨-1, 3⟩, ⟨4, 999999⟩, ⟨5, 0⟩]
        ∈ [⟨7, 5⟩, ⟨-1, 3⟩, ⟨4, 999999⟩, (⟨5, 0⟩ : timeval)] ∧
      timer_isset (reduce_timeout_all ⟨-1, 0⟩ [⟨7, 5⟩, ⟨-1, 3⟩, ⟨4, 999999⟩, ⟨5, 0⟩]) = true ∧
      ∀ t ∈ [⟨7, 5⟩, ⟨-1, 3⟩, ⟨4, 999999⟩, (⟨5, 0⟩ : timeval)], timer_isset t = true →
        (reduce_timeout_all ⟨-1, 0⟩ [⟨7, 5⟩, ⟨-1, 3⟩, ⟨4, 999999⟩, ⟨5, 0⟩]).usecs ≤ t.usecs :=
  (reduce_timeout_all_earliest ⟨-1, 0⟩ [⟨7, 5⟩, ⟨-1, 3⟩, ⟨4, 999999⟩, ⟨5, 0⟩]
    (by decide) (by decide)).2.2.1 (by decide)

/-- C15: for every admissible sequence of `bytes_resize` / `bytes_cat` calls
(requested lengths at most `2 ^ (w - 1)`) on a backed buffer that starts
with `allocsz = 0`, with enough fuel and room, after each call (after every
prefix `ops.take n`) the capacity is `0` if no non-zero length has been
requested so far, and otherwise is the least value of the form `32 * 2 ^ k`
that is at least the largest length requested so far; in particular the
first growth from capacity `0` gives at least 32, and exactly 32 for a
request of at most 32, because the seed `0x10` is doubled before the loop
condition is first tested. -/
theorem bytes_capacity_law_32 (w fuel : Nat) (h : Heap) (b : bytes_t)
    (ops : List bytes_op) (hw : 6 ≤ w) (hfuel : w ≤ fuel) (hwf : h.wf)
    (hb : bytes_backed h b) (hbs : b.sz ≤ b.allocsz) (hcap : b.allocsz = 0)
    (hops : bytes_ops_ok w h b.buf ops b.sz)
    (hroom : 32 + 2 * bytes_requested w ops b.sz ≤ h.room) (n : Nat) :
    (∃ h' b', bytes_run w fuel (ops.take n) h b = .ok (h', b') ∧
      (bytes_requested w (ops.take n) b.sz = 0 → b'.allocsz = 0) ∧
      (0 < bytes_requested w (ops.take n) b.sz →
        32 ≤ b'.allocsz ∧
        IsLeast {x | ∃ k, x = 32 * 2 ^ k ∧ bytes_requested w (ops.take n) b.sz ≤ x}
          b'.allocsz)) ∧
    (∀ newsz, 0 < newsz → newsz ≤ 2 ^ (w - 1) → 32 + 2 * newsz ≤ h.room →
      ∃ h' b', bytes_resize w fuel h b newsz = .ok (h', b') ∧ 32 ≤ b'.allocsz ∧
        (newsz ≤ 32 → b'.allocsz = 32) ∧
        bytes_resize_loop w fuel newsz 0x10 = some b'.allocsz) := by
  refine ⟨?_, ?_⟩
  · have hreq := bytes_requested_take w ops n b.sz
    obtain ⟨h', b', hrun, _, _, _, _, _, hlaw⟩ :=
      bytes_run_ok w fuel hw hfuel (ops.take n) h b 0 hwf hb hbs
        (bytes_ops_ok_take w h b.buf ops n b.sz hops) (by omega)
        ⟨fun _ => hcap, fun h0 => absurd h0 (lt_irrefl 0)⟩
    refine ⟨h', b', hrun, ?_, ?_⟩
    · intro h0
      exact hlaw.1 (by simpa using h0)
    · intro hpos
      have hl := hlaw.2 (by simpa using hpos)
      have hl' : IsLeast {x | ∃ k, x = 32 * 2 ^ k ∧
          bytes_requested w (ops.take n) b.sz ≤ x} b'.allocsz := by
        simpa using hl
      refine ⟨?_, hl'⟩
      obtain ⟨⟨k, hk, _⟩, _⟩ := hl'
      have : 1 ≤ 2 ^ k := Nat.one_le_two_pow
      rw [hk]; omega
  · intro newsz hpos hn hr
    obtain ⟨k, h', hk1, hres, hge, hmin, _⟩ :=
      bytes_resize_grow w fuel h b newsz hw hfuel hwf hb (by omega) hn (by omega)
    simp only [hcap, if_true] at hres hge hmin
    have h2 : 2 ≤ 2 ^ k := by
      calc 2 = 2 ^ 1 := by norm_num
        _ ≤ 2 ^ k := Nat.pow_le_pow_right (by norm_num) hk1
    have h16 : (16 : Nat) < 2 ^ (w - 1) := by
      calc (16 : Nat) < 2 ^ 5 := by norm_num
        _ ≤ 2 ^ (w - 1) := Nat.pow_le_pow_right (by norm_num) (by omega)
    have hreach : newsz ≤ 16 * 2 ^ fuel := by
      calc newsz ≤ 2 ^ (w - 1) := hn
        _ ≤ 2 ^ fuel := Nat.pow_le_pow_right (by norm_num) (by omega)
        _ ≤ 16 * 2 ^ fuel := Nat.le_mul_of_pos_left _ (by norm_num)
    refine ⟨h', _, hres, by simp only []; omega, ?_, ?_⟩
    · intro hle
      simp only []
      rcases Nat.lt_or_ge 1 k with h1 | h1
      · have := hmin 1 (le_refl 1) h1
        omega
      · have hk : k = 1 := by omega
        rw [hk]; norm_num
    · -- the loop itself, from the seed `0x10`
      obtain ⟨k', _, _, hloop, hge', _, hmin'⟩ :=
        bytes_resize_loop_some w fuel newsz 16 (by omega) h16 hn hreach
      have hkk : k' = k := by
        rcases Nat.lt_trichotomy k' k with hlt | heq | hgt
        · have := hmin k' (by omega) hlt; omega
        · exact heq
        · have := hmin' k (by omega) hgt; omega
      simp only []
      rw [hloop, hkk]

theorem bytes_capacity_law_32_witness :
    ∃ h' b', bytes_resize 64 64 bytes_heap_small ⟨0, 0, 0⟩ 1 = .ok (h', b') ∧
      32 ≤ b'.allocsz ∧ (1 ≤ 32 → b'.allocsz = 32) ∧
      bytes_resize_loop 64 64 1 0x10 = some b'.allocsz :=
  (bytes_capacity_law_32 64 64 bytes_heap_small ⟨0, 0, 0⟩
    [bytes_op.resize 1, bytes_op.cat ⟨1, 2, 4⟩, bytes_op.resize 40]
    (by decide) (by decide) bytes_heap_small_wf (by decide) (by decide) rfl
    (by simp [bytes_ops_ok, bytes_backed, bytes_heap_small]) (by decide) 3).2
    1 (by decide) (by decide) (by decide)

/-- C16: with `size_t` arithmetic modulo `2 ^ w`.  For every buffer and
every request `newsz ≤ 2 ^ (w - 1)` beyond the capacity, the doubling loop
of `bytes_resize` finishes within `w` rounds, no doubling reaches `2 ^ w`
(nothing wraps) and it ends with a capacity of at least `newsz`.  For every
`newsz > 2 ^ (w - 1)` and every power-of-two capacity `2 ^ i` (`i < w`), and
also from capacity `0`, the doubling wraps to `0` and the loop does not
finish for any fuel: `bytes_resize` never returns. -/
theorem bytes_resize_doubling (w : Nat) (hw : 6 ≤ w) :
    (∀ (b : bytes_t) (newsz fuel : Nat), b.allocsz < newsz → newsz ≤ 2 ^ (w - 1) →
      w ≤ fuel →
      ∃ k, 1 ≤ k ∧ k ≤ w ∧
        bytes_resize_loop w fuel newsz (if b.allocsz = 0 then 0x10 else b.allocsz)
          = some ((if b.allocsz = 0 then 0x10 else b.allocsz) * 2 ^ k) ∧
        (∀ j, j ≤ k → (if b.allocsz = 0 then 0x10 else b.allocsz) * 2 ^ j < 2 ^ w) ∧
        newsz ≤ (if b.allocsz = 0 then 0x10 else b.allocsz) * 2 ^ k) ∧
    (∀ (newsz i : Nat), 2 ^ (w - 1) < newsz → i < w →
      2 ^ i < newsz ∧ 2 ^ i * 2 ^ (w - i) % 2 ^ w = 0 ∧
      ∀ fuel, bytes_resize_loop w fuel newsz (2 ^ i) = none) ∧
    (∀ (h : Heap) (b : bytes_t) (newsz i fuel : Nat), 2 ^ (w - 1) < newsz → i < w →
      (b.allocsz = 2 ^ i ∨ b.allocsz = 0) → bytes_resize w fuel h b newsz = .spin) := by
  have h16 : (16 : Nat) < 2 ^ (w - 1) := by
    calc (16 : Nat) < 2 ^ 5 := by norm_num
      _ ≤ 2 ^ (w - 1) := Nat.pow_le_pow_right (by norm_num) (by omega)
  refine ⟨?_, ?_, ?_⟩
  · intro b newsz fuel hgt hn hfuel
    have ha0 : (if b.allocsz = 0 then 0x10 else b.allocsz) < 2 ^ (w - 1) := by
      split <;> omega
    have ha0pos : 0 < (if b.allocsz = 0 then 0x10 else b.allocsz) := by
      split <;> omega
    have hreachw : newsz ≤ (if b.allocsz = 0 then 0x10 else b.allocsz) * 2 ^ w := by
      calc newsz ≤ 2 ^ (w - 1) := hn
        _ ≤ 2 ^ w := Nat.pow_le_pow_right (by norm_num) (by omega)
        _ ≤ (if b.allocsz = 0 then 0x10 else b.allocsz) * 2 ^ w :=
            Nat.le_mul_of_pos_left _ ha0pos
    have hreach : newsz ≤ (if b.allocsz = 0 then 0x10 else b.allocsz) * 2 ^ fuel := by
      calc newsz ≤ (if b.allocsz = 0 then 0x10 else b.allocsz) * 2 ^ w := hreachw
        _ ≤ (if b.allocsz = 0 then 0x10 else b.allocsz) * 2 ^ fuel :=
            Nat.mul_le_mul_left _ (Nat.pow_le_pow_right (by norm_num) hfuel)
    obtain ⟨k, hk1, _, hloop, hge, hlt, hmin⟩ :=
      bytes_resize_loop_some w fuel newsz _ (by omega) ha0 hn hreach
    obtain ⟨kw, _, hkw, hloopw, _, _, hminw⟩ :=
      bytes_resize_loop_some w w newsz _ (by omega) ha0 hn hreachw
    have hkk : k = kw := by
      rcases Nat.lt_trichotomy k kw with hlt' | heq | hgt'
      · have := hminw k (by omega) hlt'; omega
      · exact heq
      · have := hmin kw (by omega) hgt'
        have hloopw' := bytes_resize_loop_ge w w newsz _ _ hloopw
        omega
    refine ⟨k, hk1, by omega, hloop, ?_, hge⟩
    intro j hj
    calc (if b.allocsz = 0 then 0x10 else b.allocsz) * 2 ^ j
        ≤ (if b.allocsz = 0 then 0x10 else b.allocsz) * 2 ^ k :=
          Nat.mul_le_mul_left _ (Nat.pow_le_pow_right (by norm_num) hj)
      _ < 2 ^ w := hlt
  · intro newsz i hn hi
    refine ⟨?_, ?_, fun fuel => bytes_resize_loop_spin w newsz hn fuel i hi⟩
    · calc 2 ^ i ≤ 2 ^ (w - 1) := Nat.pow_le_pow_right (by norm_num) (by omega)
        _ < newsz := hn
    · rw [← pow_add, show i + (w - i) = w from by omega]
      exact Nat.mod_self _
  · intro h b newsz i fuel hn hi hcap
    have hpos : 0 < newsz := Nat.lt_of_le_of_lt (Nat.zero_le _) hn
    rcases hcap with hc | hc
    · have hlt : 2 ^ i < newsz := by
        calc 2 ^ i ≤ 2 ^ (w - 1) := Nat.pow_le_pow_right (by norm_num) (by omega)
          _ < newsz := hn
      have hne : ¬ (2 ^ i = 0) := by
        have : 1 ≤ 2 ^ i := Nat.one_le_two_pow
        omega
      rw [bytes_resize_beyond w fuel h b newsz (by omega)]
      simp only [hc, hne, if_false, bytes_resize_loop_spin w newsz hn fuel i hi]
    · rw [bytes_resize_beyond w fuel h b newsz (by omega)]
      simp only [hc, if_true]
      have := bytes_resize_loop_spin w newsz hn fuel 4 (by omega)
      norm_num at this
      simp only [this]

theorem bytes_resize_doubling_witness :
    (∃ k, 1 ≤ k ∧ k ≤ 32 ∧
      bytes_resize_loop 32 32 1000
          (if (⟨0, 0, 0⟩ : bytes_t).allocsz = 0 then 0x10 else (⟨0, 0, 0⟩ : bytes_t).allocsz)
        = some ((if (⟨0, 0, 0⟩ : bytes_t).allocsz = 0 then 0x10
            else (⟨0, 0, 0⟩ : bytes_t).allocsz) * 2 ^ k) ∧
      (∀ j, j ≤ k → (if (⟨0, 0, 0⟩ : bytes_t).allocsz = 0 then 0x10
            else (⟨0, 0, 0⟩ : bytes_t).allocsz) * 2 ^ j < 2 ^ 32) ∧
      1000 ≤ (if (⟨0, 0, 0⟩ : bytes_t).allocsz = 0 then 0x10
            else (⟨0, 0, 0⟩ : bytes_t).allocsz) * 2 ^ k) ∧
    (∀ fuel, bytes_resize 32 fuel bytes_heap_small ⟨1, 4, 4⟩ (2 ^ 31 + 1) = .spin) :=
  ⟨(bytes_resize_doubling 32 (by decide)).1 ⟨0, 0, 0⟩ 1000 32 (by decide) (by decide)
      (by decide),
   fun fuel => (bytes_resize_doubling 32 (by decide)).2.2 bytes_heap_small ⟨1, 4, 4⟩
      (2 ^ 31 + 1) 2 fuel (by norm_num) (by decide) (Or.inl (by decide))⟩

/-- C17: for every non-empty source with `1 ≤ src.sz ≤ src.allocsz` the
halving loop of `bytes_cpy` finishes (fuel above the source capacity is
enough) and, on a backed source with room for the copy, the destination
capacity is the last value of the chain `src.allocsz / 2 ^ i` that still
holds `src.sz`, so `dst.allocsz / 2 < dst.sz ≤ dst.allocsz`.  The capacity of
a copy can therefore be below 16: a 1-byte buffer of capacity 32 is copied
with capacity 1.  For an empty source the destination is
`{buf = NULL, sz = 0, allocsz = 0}`. -/
theorem bytes_cpy_halving (fuel : Nat) (h : Heap) (dst src : bytes_t) :
    (1 ≤ src.sz → src.allocsz < fuel →
      ∃ r, bytes_cpy_loop fuel src.sz src.allocsz = some r) ∧
    (h.wf → bytes_backed h src → 1 ≤ src.sz → src.sz ≤ src.allocsz →
      src.allocsz < fuel → src.allocsz ≤ h.room →
      ∃ h' dst' j, bytes_cpy fuel h dst src = .ok (h', dst') ∧
        bytes_cpy_loop fuel src.sz src.allocsz = some dst'.allocsz ∧
        dst'.sz = src.sz ∧ dst'.allocsz = src.allocsz / 2 ^ j ∧
        IsGreatest {i | src.sz ≤ src.allocsz / 2 ^ i} j ∧
        dst'.allocsz / 2 < dst'.sz ∧ dst'.sz ≤ dst'.allocsz) ∧
    (src.sz = 0 → bytes_cpy fuel h dst src = .ok (h, ⟨0, 0, 0⟩)) ∧
    ((bytes_resize 64 64 (Heap.empty 1000) ⟨0, 0, 0⟩ 1).val.map (fun r => r.2)
        = some ⟨1, 1, 32⟩ ∧
      ((bytes_resize 64 64 (Heap.empty 1000) ⟨0, 0, 0⟩ 1).val.bind
          (fun r => (bytes_cpy 64 r.1 ⟨0, 0, 0⟩ r.2).val)).map (fun r => r.2)
        = some ⟨2, 1, 1⟩ ∧
      (1 : Nat) < 16) := by
  refine ⟨?_, ?_, bytes_cpy_empty fuel h dst src, ⟨by decide, by decide, by decide⟩⟩
  · intro hpos hfuel
    obtain ⟨j, hloop, _⟩ := bytes_cpy_loop_some fuel src.sz src.allocsz hpos hfuel
    exact ⟨_, hloop⟩
  · intro hwf hs hpos hle hfuel hroom
    obtain ⟨h', j, hres, hhalf, hge, _, _, _, _, _, _⟩ :=
      bytes_cpy_ok fuel h dst src hwf hs hpos hle hfuel hroom
    obtain ⟨j', hloop, hhalf', hge', hmin'⟩ :=
      bytes_cpy_loop_some fuel src.sz src.allocsz hpos hfuel
    -- the index of the chain value where the loop stops is determined
    have hgreat : ∀ (x : Nat), src.allocsz / 2 ^ x / 2 < src.sz →
        ∀ i, src.sz ≤ src.allocsz / 2 ^ i → i ≤ x := by
      intro x hx i hi
      by_contra hlt
      have hpow : 2 ^ (x + 1) ≤ 2 ^ i := Nat.pow_le_pow_right (by norm_num) (by omega)
      have h1 : src.allocsz / 2 ^ i ≤ src.allocsz / 2 ^ (x + 1) :=
        Nat.div_le_div_left hpow (Nat.pos_of_ne_zero (by positivity))
      have h2 : src.allocsz / 2 ^ (x + 1) = src.allocsz / 2 ^ x / 2 := by
        rw [pow_succ, Nat.div_div_eq_div_mul]
      omega
    have hjj : j' = j := by
      have a := hgreat j hhalf j' (hge' hle)
      have b := hgreat j' hhalf' j hge
      omega
    refine ⟨h', _, j, hres, by rw [hloop, hjj], rfl, rfl, ⟨hge, ?_⟩, hhalf, hge⟩
    intro i hi
    exact hgreat j hhalf i hi

theorem bytes_cpy_halving_witness :
    ∃ h' dst' j, bytes_cpy 5 bytes_heap_small ⟨0, 0, 0⟩ ⟨1, 2, 4⟩ = .ok (h', dst') ∧
      bytes_cpy_loop 5 (⟨1, 2, 4⟩ : bytes_t).sz (⟨1, 2, 4⟩ : bytes_t).allocsz
        = some dst'.allocsz ∧
      dst'.sz = (⟨1, 2, 4⟩ : bytes_t).sz ∧
      dst'.allocsz = (⟨1, 2, 4⟩ : bytes_t).allocsz / 2 ^ j ∧
      IsGreatest {i | (⟨1, 2, 4⟩ : bytes_t).sz ≤ (⟨1, 2, 4⟩ : bytes_t).allocsz / 2 ^ i} j ∧
      dst'.allocsz / 2 < dst'.sz ∧ dst'.sz ≤ dst'.allocsz :=
  (bytes_cpy_halving 5 bytes_heap_small ⟨0, 0, 0⟩ ⟨1, 2, 4⟩).2.1 bytes_heap_small_wf
    (by decide) (by decide) (by decide) (by decide) (by decide)

/-- C18: for a normalised `now` with `tv_sec ≥ 0` and a delay `usecs ≥ 0`,
the deadline built by `timer_set_delay(t, now, usecs)` (or by
`timer_set_delay_from_now` when the clock reads `now`) is set, is not passed
at `now`, and is passed at a normalised `now'` exactly when `now'` exceeds
`now` by strictly more than `usecs` microseconds. -/
theorem timer_set_delay_passed (clock now now' : timeval) (usecs : Int)
    (hs : 0 ≤ now.tv_sec) (hn : now.norm) (hu : 0 ≤ usecs) (hn' : now'.norm) :
    timer_set_delay_from_now now usecs = timer_set_delay now usecs ∧
    timer_isset (timer_set_delay now usecs) = true ∧
    timer_passed clock (timer_set_delay now usecs) (some now) = false ∧
    timer_passed now (timer_set_delay_from_now now usecs) none = false ∧
    (timer_passed clock (timer_set_delay now usecs) (some now') = true ↔
      now.usecs + usecs < now'.usecs) := by
  have hd : Int.tdiv usecs 1000000 = usecs / 1000000 :=
    Int.tdiv_eq_ediv hu (by norm_num)
  have hm : Int.tmod usecs 1000000 = usecs % 1000000 :=
    Int.tmod_eq_emod hu (by norm_num)
  -- the deadline: value, normal form, sign of the seconds
  have hval : (timer_set_delay now usecs).usecs = now.usecs + usecs ∧
      (timer_set_delay now usecs).norm ∧ 0 ≤ (timer_set_delay now usecs).tv_sec := by
    unfold timeval.norm at hn
    unfold timer_set_delay TIMEVAL_USECS timeradd timeval.usecs timeval.norm
    simp only [hd, hm]
    split <;> simp only [] <;> omega
  obtain ⟨hv, hnorm, hsec⟩ := hval
  have hset : timer_isset (timer_set_delay now usecs) = true := by
    have : (timer_set_delay now usecs).tv_sec ≠ -1 := by omega
    simp [timer_isset, this]
  have hpass : ∀ (c x : timeval), x.norm →
      (timer_passed c (timer_set_delay now usecs) (some x) = true ↔
        now.usecs + usecs < x.usecs) := by
    intro c x hx
    simp only [timer_passed, hset, Bool.not_true, Bool.false_eq_true, if_false,
      _bfg_nullisnow]
    rw [timercmp_lt_iff _ _ hnorm hx, hv]
  have hnot : ∀ c, timer_passed c (timer_set_delay now usecs) (some now) = false := by
    intro c
    cases hp : timer_passed c (timer_set_delay now usecs) (some now)
    · rfl
    · have := (hpass c now hn).mp hp
      omega
  refine ⟨rfl, hset, hnot clock, ?_, hpass clock now' hn'⟩
  have : timer_passed now (timer_set_delay_from_now now usecs) none
      = timer_passed now (timer_set_delay now usecs) (some now) := rfl
  rw [this]; exact hnot now

theorem timer_set_delay_passed_witness :
    (timer_passed ⟨0, 0⟩ (timer_set_delay ⟨5, 999999⟩ 1500001) (some ⟨7, 500001⟩) = true ↔
      (⟨5, 999999⟩ : timeval).usecs + 1500001 < (⟨7, 500001⟩ : timeval).usecs) :=
  (timer_set_delay_passed ⟨0, 0⟩ ⟨5, 999999⟩ ⟨7, 500001⟩ 1500001
    (by decide) (by decide) (by decide) (by decide)).2.2.2.2

/-- C19: for normalised `timeout` and `now`, `select_timeout` returns `NULL`
and leaves `timeout` untouched exactly when `timeout` is unset; for a set
`timeout` it returns `timeout`, rewritten in place to the remaining interval
`max(0, timeout - now)` in microseconds, which is never negative, is
normalised, and is exactly zero when the deadline is at or before `now`. -/
theorem select_timeout_spec (timeout now : timeval) (ht : timeout.norm) (hn : now.norm) :
    (((select_timeout timeout now).1 = none ∧ (select_timeout timeout now).2 = timeout) ↔
      timer_isset timeout = false) ∧
    (timer_isset timeout = true →
      (select_timeout timeout now).1 = some (select_timeout timeout now).2 ∧
      (select_timeout timeout now).2.usecs = max 0 (timeout.usecs - now.usecs) ∧
      0 ≤ (select_timeout timeout now).2.usecs ∧
      0 ≤ (select_timeout timeout now).2.tv_sec ∧
      (select_timeout timeout now).2.norm ∧
      (timeout.usecs ≤ now.usecs → (select_timeout timeout now).2 = ⟨0, 0⟩)) := by
  have hlt := timercmp_lt_iff timeout now ht hn
  refine ⟨⟨?_, ?_⟩, ?_⟩
  · rintro ⟨hnull, _⟩
    cases hs : timer_isset timeout
    · rfl
    · simp [select_timeout, hs] at hnull
  · intro hs
    simp [select_timeout, hs]
  · intro hs
    unfold timeval.norm at ht hn
    cases hc : timercmp_lt timeout now
    · have hge : ¬ (timeout.usecs < now.usecs) := by
        intro h; have := hlt.mpr h; rw [hc] at this; exact absurd this (by simp)
      unfold timeval.usecs at hge
      simp only [select_timeout, hs, Bool.not_true, Bool.false_eq_true, if_false, hc,
        timersub, timeval.usecs, timeval.norm, true_and]
      split
      · refine ⟨by simp only []; omega, by simp only []; omega, by simp only []; omega,
          by simp only []; omega, ?_⟩
        intro hle; exfalso; omega
      · refine ⟨by simp only []; omega, by simp only []; omega, by simp only []; omega,
          by simp only []; omega, ?_⟩
        intro hle
        have h1 : timeout.tv_sec - now.tv_sec = 0 := by omega
        have h2 : timeout.tv_usec - now.tv_usec = 0 := by omega
        rw [h1, h2]
    · have hl := hlt.mp hc
      unfold timeval.usecs at hl
      simp only [select_timeout, hs, Bool.not_true, Bool.false_eq_true, if_false, hc,
        if_true, timerclear, timeval.usecs, timeval.norm, true_and]
      refine ⟨?_, by norm_num, le_refl _, ⟨le_refl _, by norm_num⟩, fun _ => trivial⟩
      rw [max_eq_left (by omega)]
      norm_num

theorem select_timeout_spec_witness :
    (select_timeout ⟨9, 5⟩ ⟨7, 999999⟩).1 = some (select_timeout ⟨9, 5⟩ ⟨7, 999999⟩).2 ∧
    (select_timeout ⟨9, 5⟩ ⟨7, 999999⟩).2.usecs
      = max 0 ((⟨9, 5⟩ : timeval).usecs - (⟨7, 999999⟩ : timeval).usecs) ∧
    (select_timeout ⟨9, 5⟩ ⟨7, 999999⟩).2.norm :=
  ⟨((select_timeout_spec ⟨9, 5⟩ ⟨7, 999999⟩ (by decide) (by decide)).2 (by decide)).1,
   ((select_timeout_spec ⟨9, 5⟩ ⟨7, 999999⟩ (by decide) (by decide)).2 (by decide)).2.1,
   ((select_timeout_spec ⟨9, 5⟩ ⟨7, 999999⟩ (by decide) (by decide)).2 (by decide)).2.2.2.2.1⟩

/-- C20 (the code at the failing input): `bytes_free` returns the buffer
with the `buf` it was given, while `bytes_cpy` from an empty source gives
`buf = NULL`; on the sample buffer at address 1 the released buffer keeps
`buf = 1`, no block lives there any more, and a later `bytes_resize`
reallocates from that dangling pointer, undefined behaviour. -/
theorem bytes_free_keeps_buf :
    (∀ (h : Heap) (b : bytes_t) (h1 : Heap) (b1 : bytes_t),
      bytes_free h b = .ok (h1, b1) → b1.buf = b.buf) ∧
    (∀ (fuel : Nat) (h : Heap) (dst src : bytes_t), src.sz = 0 →
      bytes_cpy fuel h dst src = .ok (h, ⟨0, 0, 0⟩)) ∧
    (∃ h1, bytes_free bytes_heap_small ⟨1, 2, 4⟩ = .ok (h1, ⟨1, 0, 0⟩) ∧
      (⟨1, 0, 0⟩ : bytes_t).buf ≠ 0 ∧ h1.live 1 = none ∧
      bytes_resize 64 64 h1 ⟨1, 0, 0⟩ 1 = .undefined) := by
  refine ⟨?_, bytes_cpy_empty, ?_⟩
  · intro h b h1 b1 hres
    rw [bytes_free_inv h b h1 b1 hres]
  · obtain ⟨h1, hres, hl⟩ :=
      bytes_free_dangling bytes_heap_small ⟨1, 2, 4⟩ (by decide) (by decide)
    refine ⟨h1, hres, by decide, hl, ?_⟩
    have hgt : ¬ (1 ≤ (⟨1, 0, 0⟩ : bytes_t).allocsz) := by decide
    rw [bytes_resize_beyond 64 64 h1 ⟨1, 0, 0⟩ 1 hgt]
    have hloop : bytes_resize_loop 64 64 1 16 = some 32 := by decide
    have hl1 : h1.live 1 = none := hl
    have hre : realloc h1 1 32 = none := by
      simp only [realloc]
      rw [if_neg (by decide), hl1]
    simp only [if_true, hloop, hre]

end Bfg
